import Mathlib

/-!
Verification development for the rs-columar columnar storage engine.

The definitions below are shallow embeddings of the Rust sources:
  * `src/indexing/columnar/src/encoding/bitpack/v1/common.rs`
  * `src/columnar/src/encoding/bitpack/v1/writer.rs`
  * `src/columnar/src/encoding/bitpack/v1/reader.rs`
  * `src/columnar/src/encoding/bitpack/v1/page_writer.rs`
  * `src/columnar/src/encoding/bitpack/v1/stream_writer.rs`
  * `src/indexing/columnar/src/encoding/bitpack/v1/page_reader.rs`
  * `src/indexing/columnar/src/encoding/iters/num.rs`
  * `src/indexing/columnar/src/buffers/{mod,buffer_pool,smart_pool}.rs`
  * `src/indexing/toolkit/src/table/{common,encoder,decoder,key_reader}.rs`

Machine integers are modelled as `Nat` (bit patterns, with explicit masks
where the Rust code can wrap) and `Int` (signed values).  Byte streams are
`List Nat` whose elements model `u8` values (invariantly below 256).
Rust `while` loops are modelled as structural recursion on an explicit
iteration budget that provably dominates the number of iterations the
source loop can make, so every definition evaluates by kernel reduction.
-/

namespace RsCol

/-- Subset of `std::io::ErrorKind` used by the storage engine. -/
inductive EKind where
  | invalidData
  | unexpectedEof
  | invalidInput
  | notFound
  deriving DecidableEq, Repr

/-! ## Little-endian byte helpers -/

/-- Little-endian bytes (least significant first) of `n`, truncated to `len` bytes.
Models `to_le_bytes` on a `len`-byte machine integer given its bit pattern. -/
def natLeBytes : Nat → Nat → List Nat
  | _, 0 => []
  | n, len + 1 => n % 256 :: natLeBytes (n / 256) len

/-- Value of a little-endian byte list (bytes assumed below 256).
Models `from_le_bytes`. -/
def leBytesToNat : List Nat → Nat
  | [] => 0
  | b :: t => b + 256 * leBytesToNat t

theorem natLeBytes_length (n len : Nat) : (natLeBytes n len).length = len := by
  induction len generalizing n with
  | zero => rfl
  | succ m ih => simp [natLeBytes, ih]

theorem natLeBytes_lt (n len : Nat) : ∀ b ∈ natLeBytes n len, b < 256 := by
  induction len generalizing n with
  | zero => intro b hb; simp [natLeBytes] at hb
  | succ m ih =>
    intro b hb
    simp only [natLeBytes, List.mem_cons] at hb
    rcases hb with h | h
    · omega
    · exact ih (n / 256) b h

theorem leBytesToNat_natLeBytes (n len : Nat) (h : n < 256 ^ len) :
    leBytesToNat (natLeBytes n len) = n := by
  induction len generalizing n with
  | zero =>
    simp only [Nat.pow_zero, Nat.lt_one_iff] at h
    simp [natLeBytes, leBytesToNat, h]
  | succ m ih =>
    have hdiv : n / 256 < 256 ^ m := by
      rw [Nat.div_lt_iff_lt_mul (by norm_num)]
      calc n < 256 ^ (m + 1) := h
        _ = 256 ^ m * 256 := by rw [Nat.pow_succ]
    simp only [natLeBytes, leBytesToNat, ih (n / 256) hdiv]
    omega

theorem leBytesToNat_lt (bs : List Nat) (h : ∀ b ∈ bs, b < 256) :
    leBytesToNat bs < 256 ^ bs.length := by
  induction bs with
  | nil => simp [leBytesToNat]
  | cons b t ih =>
    have hb : b < 256 := h b (by simp)
    have ht := ih (fun x hx => h x (by simp [hx]))
    simp only [leBytesToNat, List.length_cons, Nat.pow_succ]
    calc b + 256 * leBytesToNat t
        ≤ 255 + 256 * leBytesToNat t := by omega
      _ < 256 * (leBytesToNat t + 1) := by omega
      _ ≤ 256 ^ t.length * 256 := by
          rw [Nat.mul_comm]
          exact Nat.mul_le_mul_right 256 ht

/-! ## Bit-level arithmetic toolkit -/

theorem and_two_pow_sub_one (n k : Nat) : n &&& (2 ^ k - 1) = n % 2 ^ k := by
  apply Nat.eq_of_testBit_eq
  intro i
  simp only [Nat.testBit_and, Nat.testBit_two_pow_sub_one, Nat.testBit_mod_two_pow]
  rw [Bool.and_comm]

theorem or_mul_two_pow_eq_add {a : Nat} (b : Nat) {k : Nat} (h : a < 2 ^ k) :
    a ||| b * 2 ^ k = a + b * 2 ^ k := by
  apply Nat.eq_of_testBit_eq
  intro i
  rw [Nat.mul_comm b (2 ^ k), Nat.add_comm a (2 ^ k * b), Nat.testBit_mul_pow_two_add b h i]
  simp only [Nat.testBit_or]
  by_cases hik : i < k
  · have hb : (2 ^ k * b).testBit i = false := by
      rw [Nat.testBit_mul_pow_two]
      simp [Nat.not_le_of_lt hik]
    simp [hb, hik]
  · have ha : a.testBit i = false :=
      Nat.testBit_lt_two_pow (Nat.lt_of_lt_of_le h (Nat.pow_le_pow_right (by omega) (by omega)))
    have hb : (2 ^ k * b).testBit i = b.testBit (i - k) := by
      rw [Nat.testBit_mul_pow_two]
      simp [Nat.le_of_not_lt hik]
    simp [ha, hb, hik]

theorem xor_two_pow_sub_one {n x : Nat} (h : x < 2 ^ n) :
    x ^^^ (2 ^ n - 1) = 2 ^ n - 1 - x := by
  induction n generalizing x with
  | zero =>
    have : x = 0 := by omega
    simp [this]
  | succ m ih =>
    have hx2 : x / 2 < 2 ^ m := by
      have : x < 2 ^ m * 2 := by rw [← Nat.pow_succ]; exact h
      omega
    have hdiv : (x ^^^ (2 ^ (m + 1) - 1)) / 2 = 2 ^ m - 1 - x / 2 := by
      rw [Nat.xor_div_two]
      have h2 : (2 ^ (m + 1) - 1) / 2 = 2 ^ m - 1 := by
        have : 2 ^ (m + 1) = 2 ^ m * 2 := by rw [Nat.pow_succ]
        omega
      rw [h2]
      exact ih hx2
    have hmod : (x ^^^ (2 ^ (m + 1) - 1)) % 2 = 1 - x % 2 := by
      have hone : (2 ^ (m + 1) - 1) % 2 = 1 := by
        have : 2 ^ (m + 1) = 2 ^ m * 2 := by rw [Nat.pow_succ]
        omega
      rcases Nat.mod_two_eq_zero_or_one x with hx | hx
      · have hxor : ((x ^^^ (2 ^ (m + 1) - 1)) % 2 = 1) ↔
            ¬ ((x % 2 = 1) ↔ ((2 ^ (m + 1) - 1) % 2 = 1)) := Nat.xor_mod_two_eq_one
        have hres : (x ^^^ (2 ^ (m + 1) - 1)) % 2 = 1 := by
          rw [hxor, hone]
          simp [hx]
        omega
      · have hxor : ((x ^^^ (2 ^ (m + 1) - 1)) % 2 = 1) ↔
            ¬ ((x % 2 = 1) ↔ ((2 ^ (m + 1) - 1) % 2 = 1)) := Nat.xor_mod_two_eq_one
        have hres : ¬ (x ^^^ (2 ^ (m + 1) - 1)) % 2 = 1 := by
          rw [hxor, hone]
          simp [hx]
        omega
    have hx' := Nat.div_add_mod x 2
    have hy' := Nat.div_add_mod (x ^^^ (2 ^ (m + 1) - 1)) 2
    have hpow : 2 ^ (m + 1) = 2 ^ m * 2 := by rw [Nat.pow_succ]
    have hxm : x % 2 ≤ 1 := by omega
    omega

theorem mod_pow_split (n a b : Nat) :
    n % 2 ^ (a + b) = n % 2 ^ a + 2 ^ a * (n / 2 ^ a % 2 ^ b) := by
  have hpow : 2 ^ (a + b) = 2 ^ a * 2 ^ b := by rw [Nat.pow_add]
  have h1 : n % (2 ^ a * 2 ^ b) % 2 ^ a = n % 2 ^ a := Nat.mod_mul_right_mod n (2 ^ a) (2 ^ b)
  have h2 : n % (2 ^ a * 2 ^ b) / 2 ^ a = n / 2 ^ a % 2 ^ b :=
    Nat.mod_mul_right_div_self n (2 ^ a) (2 ^ b)
  have h3 := Nat.div_add_mod (n % (2 ^ a * 2 ^ b)) (2 ^ a)
  rw [h2, h1] at h3
  rw [hpow]
  omega

theorem div_pow_split (x V a b : Nat) (hx : x < 2 ^ a) :
    (x + 2 ^ a * V) / 2 ^ (a + b) = V / 2 ^ b := by
  have hpow : 2 ^ (a + b) = 2 ^ a * 2 ^ b := by rw [Nat.pow_add]
  rw [hpow, ← Nat.div_div_eq_div_mul]
  have h1 : (x + 2 ^ a * V) / 2 ^ a = V := by
    rw [Nat.add_mul_div_left x V (Nat.pos_pow_of_pos a (by omega))]
    rw [Nat.div_eq_of_lt hx]
    omega
  rw [h1]

theorem add_mul_div_pow (x V a : Nat) (hx : x < 2 ^ a) :
    (x + 2 ^ a * V) / 2 ^ a = V := by
  rw [Nat.add_mul_div_left x V (Nat.pos_pow_of_pos a (by omega))]
  rw [Nat.div_eq_of_lt hx]
  omega

theorem add_mul_mod_pow (x V a : Nat) (hx : x < 2 ^ a) :
    (x + 2 ^ a * V) % 2 ^ a = x := by
  rw [Nat.add_mul_mod_self_left ]
  exact Nat.mod_eq_of_lt hx

/-- Bit length of a `u64` value, i.e. `64 - leading_zeros`.  The Rust source
computes it as `64 - enc.leading_zeros()`; we model the loop over the 64 bits
of the word with an explicit budget of 64 halvings, which is exact for every
`u64` bit pattern. -/
def bitLenAux : Nat → Nat → Nat
  | 0, _ => 0
  | fuel + 1, n => if n = 0 then 0 else bitLenAux fuel (n / 2) + 1

def bitLen (n : Nat) : Nat := bitLenAux 64 n

theorem bitLenAux_lt (fuel n : Nat) (h : n < 2 ^ fuel) : n < 2 ^ bitLenAux fuel n := by
  induction fuel generalizing n with
  | zero => simpa [bitLenAux] using h
  | succ m ih =>
    by_cases h0 : n = 0
    · simp [bitLenAux, h0]
    · have hdiv : n / 2 < 2 ^ m := by
        have : 2 ^ (m + 1) = 2 ^ m * 2 := by rw [Nat.pow_succ]
        omega
      have := ih (n / 2) hdiv
      simp only [bitLenAux, h0, if_false]
      have hpow : 2 ^ (bitLenAux m (n / 2) + 1) = 2 ^ bitLenAux m (n / 2) * 2 := by
        rw [Nat.pow_succ]
      omega

theorem bitLen_lt (n : Nat) (h : n < 2 ^ 64) : n < 2 ^ bitLen n :=
  bitLenAux_lt 64 n h

theorem bitLenAux_mono (fuel : Nat) : ∀ a b : Nat, a ≤ b → bitLenAux fuel a ≤ bitLenAux fuel b := by
  induction fuel with
  | zero => intro a b _; simp [bitLenAux]
  | succ m ih =>
    intro a b hab
    by_cases ha : a = 0
    · simp [bitLenAux, ha]
    · have hb : b ≠ 0 := by omega
      simp only [bitLenAux, ha, hb, if_false]
      have : a / 2 ≤ b / 2 := Nat.div_le_div_right hab
      exact Nat.succ_le_succ (ih _ _ this)

theorem bitLen_mono {a b : Nat} (h : a ≤ b) : bitLen a ≤ bitLen b :=
  bitLenAux_mono 64 a b h

theorem bitLenAux_le (fuel n : Nat) (h : n < 2 ^ fuel) : ∀ c, n < 2 ^ c → bitLenAux fuel n ≤ c := by
  induction fuel generalizing n with
  | zero => intro c _; simp [bitLenAux]
  | succ m ih =>
    intro c hc
    by_cases h0 : n = 0
    · simp [bitLenAux, h0]
    · have hdiv : n / 2 < 2 ^ m := by
        have : 2 ^ (m + 1) = 2 ^ m * 2 := by rw [Nat.pow_succ]
        omega
      have hc0 : c ≠ 0 := by
        intro hc0
        rw [hc0, Nat.pow_zero] at hc
        omega
      have hdivc : n / 2 < 2 ^ (c - 1) := by
        have hc1 : (c - 1) + 1 = c := by omega
        have : 2 ^ c = 2 ^ (c - 1) * 2 := by
          conv_lhs => rw [← hc1]
          rw [Nat.pow_succ]
        omega
      have := ih (n / 2) hdiv (c - 1) hdivc
      simp only [bitLenAux, h0, if_false]
      omega

theorem bitLen_le (n c : Nat) (h64 : n < 2 ^ 64) (h : n < 2 ^ c) : bitLen n ≤ c :=
  bitLenAux_le 64 n h64 c h

deriving instance DecidableEq for Except

/-! ## Integer kinds and the bit codec (`bitpack/v1/common.rs`)

A Rust integer type `T` is modelled by an `IntKind` giving its byte width and
signedness.  A value of `T` is an `Int` inside the kind's range; its `u64` bit
pattern is a `Nat` below `2 ^ 64`. -/

/-- Bit pattern of an `i64` value after an `as u64` cast. -/
def toU64 (n : Int) : Nat := (n % (2 : Int) ^ 64).toNat

/-- The `i64` value carried by a `u64` bit pattern (an `as i64` cast). -/
def fromU64 (p : Nat) : Int := if p < 2 ^ 63 then (p : Int) else (p : Int) - (2 : Int) ^ 64

/-- Arithmetic right shift of an `i64` value by `s` bits, which is floor
division by `2 ^ s`. -/
def i64Shr (n : Int) (s : Nat) : Int := Int.fdiv n ((2 : Int) ^ s)

/-- The `common.rs` function `zigzag_encode_width_aware`:
`((n << 1) ^ (n >> (bits - 1))) as u64`, computed on `u64` bit patterns
(the `i64` left shift wraps, so its pattern is `toU64 (n * 2)`). -/
def zigzag_encode_width_aware (n : Int) (bits : Nat) : Nat :=
  toU64 (n * 2) ^^^ toU64 (i64Shr n (bits - 1))

/-- The `common.rs` function `zigzag_decode_u64`:
`((u >> 1) as i64) ^ (-((u & 1) as i64))`, computed on bit patterns. -/
def zigzag_decode_u64 (u : Nat) : Int :=
  fromU64 ((u >>> 1) ^^^ toU64 (-(((u % 2 : Nat)) : Int)))

/-- A supported integer type: its byte width and signedness. -/
structure IntKind where
  bytes : Nat
  signed : Bool
  deriving DecidableEq, Repr

/-- The constant `T::BITS`. -/
def IntKind.bits (k : IntKind) : Nat := 8 * k.bytes

/-- The `BitEncodable::mask()` helper: the lower `BITS` bits. -/
def IntKind.mask (k : IntKind) : Nat := if k.bits = 64 then 2 ^ 64 - 1 else 2 ^ k.bits - 1

/-- An `as T` truncating cast from an `i64` (or any integer) to the kind `k`:
keep the low `bits` bits of the two's-complement pattern and reinterpret. -/
def castToWidth (bits : Nat) (signed : Bool) (i : Int) : Int :=
  let p := (i % ((2 : Int) ^ bits)).toNat
  if signed = true ∧ 2 ^ (bits - 1) ≤ p then (p : Int) - (2 : Int) ^ bits else (p : Int)

/-- The `BitEncodable::encode` implementations: identity (`as u64`) for
unsigned kinds, width-aware ZigZag for signed kinds. -/
def IntKind.encode (k : IntKind) (v : Int) : Nat :=
  if k.signed then zigzag_encode_width_aware v k.bits else toU64 v

/-- The `BitEncodable::decode` implementations: mask to `BITS` and cast back
for unsigned kinds, mask then inverse ZigZag then `as T` for signed kinds. -/
def IntKind.decode (k : IntKind) (payload : Nat) : Int :=
  if k.signed then castToWidth k.bits true (zigzag_decode_u64 (payload &&& k.mask))
  else ((payload &&& k.mask : Nat) : Int)

/-- The `common.rs` function `bit_width_from_value`: minimal bit width of the
encoded value, where `64 - enc.leading_zeros()` is the bit length of `enc`. -/
def bit_width_from_value (k : IntKind) (v : Int) : Nat :=
  if k.encode v = 0 then 1 else bitLen (k.encode v)

/-- The `common.rs` function `clamp_width_to_type`. -/
def clamp_width_to_type (k : IntKind) (w : Nat) : Nat := min w k.bits

/-- The value range of the kind (which `Int`s inhabit the Rust type). -/
def IntKind.inRange (k : IntKind) (v : Int) : Prop :=
  if k.signed then -((2 : Int) ^ (k.bits - 1)) ≤ v ∧ v < (2 : Int) ^ (k.bits - 1)
  else 0 ≤ v ∧ v < (2 : Int) ^ k.bits

instance (k : IntKind) (v : Int) : Decidable (k.inRange v) := by
  unfold IntKind.inRange
  split <;> infer_instance

/-- The constant `T::MIN`. -/
def IntKind.minVal (k : IntKind) : Int :=
  if k.signed then -((2 : Int) ^ (k.bits - 1)) else 0

/-- The constant `T::MAX`. -/
def IntKind.maxVal (k : IntKind) : Int :=
  if k.signed then (2 : Int) ^ (k.bits - 1) - 1 else (2 : Int) ^ k.bits - 1

/-- The kinds the codec is implemented for (`u8/u16/u32/u64/usize` and the
signed counterparts; `usize/isize` are 8 bytes). -/
def IntKind.isSupported (k : IntKind) : Prop :=
  k.bytes = 1 ∨ k.bytes = 2 ∨ k.bytes = 4 ∨ k.bytes = 8

/-- The `LeNum::to_le_bytes` implementations: little-endian bytes of the
two's-complement pattern. -/
def IntKind.toLeBytes (k : IntKind) (v : Int) : List Nat :=
  natLeBytes ((v % ((2 : Int) ^ k.bits)).toNat) k.bytes

/-- The `LeNum::from_le_bytes` implementations. -/
def IntKind.fromLeBytes (k : IntKind) (bs : List Nat) : Int :=
  castToWidth k.bits k.signed ((leBytesToNat bs : Nat) : Int)

def kindU8 : IntKind := ⟨1, false⟩
def kindU16 : IntKind := ⟨2, false⟩
def kindU32 : IntKind := ⟨4, false⟩
def kindU64 : IntKind := ⟨8, false⟩
def kindI8 : IntKind := ⟨1, true⟩
def kindI16 : IntKind := ⟨2, true⟩
def kindI32 : IntKind := ⟨4, true⟩
def kindI64 : IntKind := ⟨8, true⟩

/-! ### Codec facts -/

theorem IntKind.mask_eq (k : IntKind) : k.mask = 2 ^ k.bits - 1 := by
  unfold IntKind.mask
  split
  · rename_i h
    rw [h]
  · rfl

theorem IntKind.bits_le (k : IntKind) (hs : k.isSupported) : k.bits ≤ 64 := by
  rcases hs with h | h | h | h <;> simp [IntKind.bits, h]

theorem IntKind.bits_pos (k : IntKind) (hs : k.isSupported) : 0 < k.bits := by
  rcases hs with h | h | h | h <;> simp [IntKind.bits, h]

theorem toU64_of_nonneg {n : Int} (h0 : 0 ≤ n) (h : n < (2 : Int) ^ 64) :
    toU64 n = n.toNat := by
  unfold toU64
  rw [Int.emod_eq_of_lt h0 h]

theorem toU64_of_neg {n : Int} (h0 : n < 0) (h : -((2 : Int) ^ 64) ≤ n) :
    toU64 n = (n + (2 : Int) ^ 64).toNat := by
  unfold toU64
  have h1 : (n + (2 : Int) ^ 64) % (2 : Int) ^ 64 = n % (2 : Int) ^ 64 := by
    have := Int.add_mul_emod_self_left n ((2 : Int) ^ 64) 1
    simp only [Int.mul_one] at this
    exact this
  have hmod : n % (2 : Int) ^ 64 = n + (2 : Int) ^ 64 := by
    rw [← h1]
    exact Int.emod_eq_of_lt (by omega) (by omega)
  rw [hmod]

theorem fdiv_small_nonneg {v d : Int} (hd : 0 < d) (h0 : 0 ≤ v) (h1 : v < d) :
    Int.fdiv v d = 0 := by
  have heq := Int.fdiv_add_fmod v d
  have hr0 : 0 ≤ v.fmod d := Int.fmod_nonneg' v hd
  have hr1 : v.fmod d < d := Int.fmod_lt_of_pos v hd
  set q := v.fdiv d with hq
  rcases lt_trichotomy q 0 with hneg | hzero | hpos
  · have : d * q ≤ d * (-1) := by
      apply Int.mul_le_mul_of_nonneg_left
      · omega
      · omega
    omega
  · exact hzero
  · have : d * 1 ≤ d * q := by
      apply Int.mul_le_mul_of_nonneg_left
      · omega
      · omega
    omega

theorem fdiv_small_neg {v d : Int} (hd : 0 < d) (h0 : v < 0) (h1 : -d ≤ v) :
    Int.fdiv v d = -1 := by
  have heq := Int.fdiv_add_fmod v d
  have hr0 : 0 ≤ v.fmod d := Int.fmod_nonneg' v hd
  have hr1 : v.fmod d < d := Int.fmod_lt_of_pos v hd
  set q := v.fdiv d with hq
  rcases lt_trichotomy q (-1) with hneg | hzero | hpos
  · have : d * q ≤ d * (-2) := by
      apply Int.mul_le_mul_of_nonneg_left
      · omega
      · omega
    omega
  · exact hzero
  · have : d * 0 ≤ d * q := by
      apply Int.mul_le_mul_of_nonneg_left
      · omega
      · omega
    omega

/-- Closed form of the width-aware ZigZag encoding on in-range values. -/
theorem zigzag_encode_closed (k : IntKind) (hs : k.isSupported) (hsig : k.signed = true)
    (v : Int) (hv : k.inRange v) :
    zigzag_encode_width_aware v k.bits =
      if 0 ≤ v then (2 * v).toNat else (-(2 * v) - 1).toNat := by
  have hbits := k.bits_le hs
  have hpos := k.bits_pos hs
  have hrange : -((2 : Int) ^ (k.bits - 1)) ≤ v ∧ v < (2 : Int) ^ (k.bits - 1) := by
    unfold IntKind.inRange at hv
    rw [hsig] at hv
    simpa using hv
  have hhalf : (2 : Int) ^ (k.bits - 1) ≤ (2 : Int) ^ 63 := by
    apply pow_le_pow_right₀ (by omega)
    omega
  unfold zigzag_encode_width_aware i64Shr
  by_cases h0 : 0 ≤ v
  · have hshift : Int.fdiv v ((2 : Int) ^ (k.bits - 1)) = 0 :=
      fdiv_small_nonneg (by positivity) h0 (by omega)
    rw [hshift]
    have htw : toU64 0 = 0 := by decide
    rw [htw, Nat.xor_zero]
    rw [toU64_of_nonneg (by omega) (by
      have : (2 : Int) ^ 64 = (2 : Int) ^ 63 * 2 := by norm_num
      omega)]
    have : v * 2 = 2 * v := by ring
    rw [this]
    simp [h0]
  · have hvneg : v < 0 := by omega
    have hshift : Int.fdiv v ((2 : Int) ^ (k.bits - 1)) = -1 :=
      fdiv_small_neg (by positivity) hvneg (by omega)
    rw [hshift]
    have hm1 : toU64 (-1) = 2 ^ 64 - 1 := by decide
    rw [hm1]
    have hv2 : toU64 (v * 2) = (v * 2 + (2 : Int) ^ 64).toNat := by
      apply toU64_of_neg
      · omega
      · have : (2 : Int) ^ 64 = (2 : Int) ^ 63 * 2 := by norm_num
        omega
    rw [hv2]
    have hlt : (v * 2 + (2 : Int) ^ 64).toNat < 2 ^ 64 := by
      have h164 : ((2 ^ 64 : Nat) : Int) = (2 : Int) ^ 64 := by norm_num
      omega
    rw [xor_two_pow_sub_one hlt]
    have h164 : ((2 ^ 64 : Nat) : Int) = (2 : Int) ^ 64 := by norm_num
    simp only [h0, if_false]
    omega

/-- The encoded form of an in-range value fits in `BITS` bits. -/
theorem encode_lt_two_pow_bits (k : IntKind) (hs : k.isSupported) (v : Int)
    (hv : k.inRange v) : k.encode v < 2 ^ k.bits := by
  have hpos := k.bits_pos hs
  unfold IntKind.encode
  by_cases hsig : k.signed
  · rw [if_pos hsig, zigzag_encode_closed k hs (by simpa using hsig) v hv]
    have hrange : -((2 : Int) ^ (k.bits - 1)) ≤ v ∧ v < (2 : Int) ^ (k.bits - 1) := by
      unfold IntKind.inRange at hv
      simp only [hsig, if_true] at hv
      simpa using hv
    have hsplit : (2 : Int) ^ k.bits = (2 : Int) ^ (k.bits - 1) * 2 := by
      have h1 : k.bits - 1 + 1 = k.bits := by omega
      conv_lhs => rw [← h1]
      rw [pow_succ]
    have hcast : ((2 ^ k.bits : Nat) : Int) = (2 : Int) ^ k.bits := by
      push_cast
      ring
    by_cases h0 : 0 ≤ v
    · simp only [h0, if_true]
      omega
    · simp only [h0, if_false]
      omega
  · rw [if_neg hsig]
    have hrange : 0 ≤ v ∧ v < (2 : Int) ^ k.bits := by
      unfold IntKind.inRange at hv
      simp only [hsig, if_false] at hv
      simpa using hv
    have hcast : ((2 ^ k.bits : Nat) : Int) = (2 : Int) ^ k.bits := by
      push_cast
      ring
    have hb64 : (2 : Int) ^ k.bits ≤ (2 : Int) ^ 64 :=
      pow_le_pow_right₀ (by omega) (k.bits_le hs)
    rw [toU64_of_nonneg hrange.1 (by omega)]
    omega

theorem encode_lt_two_pow_64 (k : IntKind) (hs : k.isSupported) (v : Int)
    (hv : k.inRange v) : k.encode v < 2 ^ 64 := by
  have h1 := encode_lt_two_pow_bits k hs v hv
  have h2 : (2 : Nat) ^ k.bits ≤ 2 ^ 64 := Nat.pow_le_pow_right (by omega) (k.bits_le hs)
  omega

theorem int_emod_of_neg {n d : Int} (hpos : 0 < d) (h0 : n < 0) (hd : -d ≤ n) :
    n % d = n + d := by
  have h1 : (n + d) % d = n % d := by
    have := Int.add_mul_emod_self_left n d 1
    simp only [Int.mul_one] at this
    exact this
  rw [← h1]
  exact Int.emod_eq_of_lt (by omega) (by omega)

theorem castToWidth_false_eq (bits : Nat) {v : Int} (h0 : 0 ≤ v) (h1 : v < (2 : Int) ^ bits) :
    castToWidth bits false v = v := by
  unfold castToWidth
  rw [Int.emod_eq_of_lt h0 h1]
  simp only [Bool.false_eq_true, false_and, if_false]
  omega

theorem castToWidth_true_nonneg (bits : Nat) {v : Int} (h0 : 0 ≤ v)
    (h1 : v < (2 : Int) ^ (bits - 1)) (hb : 1 ≤ bits) : castToWidth bits true v = v := by
  unfold castToWidth
  have hlt : v < (2 : Int) ^ bits := by
    have : (2 : Int) ^ (bits - 1) ≤ (2 : Int) ^ bits := pow_le_pow_right₀ (by omega) (by omega)
    omega
  rw [Int.emod_eq_of_lt h0 hlt]
  have hc : ((2 ^ (bits - 1) : Nat) : Int) = (2 : Int) ^ (bits - 1) := by push_cast; ring
  have hcond : ¬ (2 ^ (bits - 1) ≤ v.toNat) := by omega
  simp only [true_and, hcond, if_false]
  omega

theorem castToWidth_true_neg (bits : Nat) {v : Int} (h0 : v < 0)
    (h1 : -((2 : Int) ^ (bits - 1)) ≤ v) (hb : 1 ≤ bits) : castToWidth bits true v = v := by
  unfold castToWidth
  have hhalf : (2 : Int) ^ bits = (2 : Int) ^ (bits - 1) * 2 := by
    have h2 : bits - 1 + 1 = bits := by omega
    conv_lhs => rw [← h2]
    rw [pow_succ]
  have hmod : v % (2 : Int) ^ bits = v + (2 : Int) ^ bits :=
    int_emod_of_neg (by positivity) h0 (by omega)
  rw [hmod]
  have hc : ((2 ^ (bits - 1) : Nat) : Int) = (2 : Int) ^ (bits - 1) := by push_cast; ring
  have hcb : ((2 ^ bits : Nat) : Int) = (2 : Int) ^ bits := by push_cast; ring
  have hcond : 2 ^ (bits - 1) ≤ (v + (2 : Int) ^ bits).toNat := by omega
  simp only [true_and, hcond, if_true]
  omega

/-- Decoding inverts encoding on every in-range value of a supported kind. -/
theorem decode_encode (k : IntKind) (hs : k.isSupported) (v : Int) (hv : k.inRange v) :
    k.decode (k.encode v) = v := by
  have hbits := k.bits_le hs
  have hpos := k.bits_pos hs
  have hencb := encode_lt_two_pow_bits k hs v hv
  have hmask : k.encode v &&& k.mask = k.encode v := by
    rw [k.mask_eq, and_two_pow_sub_one, Nat.mod_eq_of_lt hencb]
  unfold IntKind.decode
  by_cases hsig : k.signed
  · have hsigt : k.signed = true := by simpa using hsig
    have hrange : -((2 : Int) ^ (k.bits - 1)) ≤ v ∧ v < (2 : Int) ^ (k.bits - 1) := by
      unfold IntKind.inRange at hv
      simp only [hsigt, if_true] at hv
      simpa using hv
    have hhalf63 : (2 : Int) ^ (k.bits - 1) ≤ (2 : Int) ^ 63 :=
      pow_le_pow_right₀ (by omega) (by omega)
    have henc := zigzag_encode_closed k hs hsigt v hv
    rw [if_pos hsig, hmask]
    unfold IntKind.encode at henc ⊢
    rw [if_pos hsig] at *
    rw [henc]
    by_cases h0 : 0 ≤ v
    · simp only [h0, if_true]
      unfold zigzag_decode_u64
      have hu : (2 * v).toNat = 2 * v.toNat := by omega
      have hshift : (2 * v).toNat >>> 1 = v.toNat := by
        rw [Nat.shiftRight_eq_div_pow]
        omega
      have hmod2 : (2 * v).toNat % 2 = 0 := by omega
      rw [hshift, hmod2]
      have hz : toU64 (-((0 : Nat) : Int)) = 0 := by decide
      rw [hz, Nat.xor_zero]
      unfold fromU64
      have hc63 : ((2 ^ 63 : Nat) : Int) = (2 : Int) ^ 63 := by norm_num
      have hlt63 : v.toNat < 2 ^ 63 := by omega
      rw [if_pos hlt63]
      have : ((v.toNat : Nat) : Int) = v := by omega
      rw [this]
      exact castToWidth_true_nonneg k.bits h0 hrange.2 (by omega)
    · simp only [h0, if_false]
      unfold zigzag_decode_u64
      have hM1 : 1 ≤ (-v).toNat := by omega
      have hM2 : (-v).toNat ≤ 2 ^ (k.bits - 1) := by
        have hc : ((2 ^ (k.bits - 1) : Nat) : Int) = (2 : Int) ^ (k.bits - 1) := by
          push_cast; ring
        omega
      have hMu : (-(2 * v) - 1).toNat = 2 * (-v).toNat - 1 := by omega
      have hshift : (-(2 * v) - 1).toNat >>> 1 = (-v).toNat - 1 := by
        rw [Nat.shiftRight_eq_div_pow, hMu]
        omega
      have hmod2 : (-(2 * v) - 1).toNat % 2 = 1 := by omega
      rw [hshift, hmod2]
      have ho : toU64 (-((1 : Nat) : Int)) = 2 ^ 64 - 1 := by decide
      rw [ho]
      have hhalfN : (2 : Nat) ^ (k.bits - 1) ≤ 2 ^ 63 := Nat.pow_le_pow_right (by omega) (by omega)
      have hlt : (-v).toNat - 1 < 2 ^ 64 := by omega
      rw [xor_two_pow_sub_one hlt]
      unfold fromU64
      have hge : ¬ (2 ^ 64 - 1 - ((-v).toNat - 1) < 2 ^ 63) := by omega
      rw [if_neg hge]
      have hvv : ((2 ^ 64 - 1 - ((-v).toNat - 1) : Nat) : Int) - (2 : Int) ^ 64 = v := by
        have hc64 : ((2 ^ 64 : Nat) : Int) = (2 : Int) ^ 64 := by norm_num
        omega

      rw [hvv]
      exact castToWidth_true_neg k.bits (by omega) hrange.1 (by omega)
  · have hsigf : k.signed = false := by simpa using hsig
    have hrange : 0 ≤ v ∧ v < (2 : Int) ^ k.bits := by
      unfold IntKind.inRange at hv
      simp only [hsigf, Bool.false_eq_true, if_false] at hv
      simpa using hv
    rw [if_neg hsig, hmask]
    unfold IntKind.encode
    rw [if_neg hsig]
    have hb64 : (2 : Int) ^ k.bits ≤ (2 : Int) ^ 64 := pow_le_pow_right₀ (by omega) hbits
    rw [toU64_of_nonneg hrange.1 (by omega)]
    omega

/-- Reading back the little-endian spill bytes recovers the value. -/
theorem fromLeBytes_toLeBytes (k : IntKind) (hs : k.isSupported) (v : Int)
    (hv : k.inRange v) : k.fromLeBytes (k.toLeBytes v) = v := by
  have hbits := k.bits_le hs
  have hpos := k.bits_pos hs
  have hpow : (2 : Nat) ^ k.bits = 256 ^ k.bytes := by
    unfold IntKind.bits
    rw [Nat.pow_mul]
  have hcb : ((2 ^ k.bits : Nat) : Int) = (2 : Int) ^ k.bits := by push_cast; ring
  unfold IntKind.toLeBytes IntKind.fromLeBytes
  by_cases hsig : k.signed
  · have hsigt : k.signed = true := by simpa using hsig
    have hrange : -((2 : Int) ^ (k.bits - 1)) ≤ v ∧ v < (2 : Int) ^ (k.bits - 1) := by
      unfold IntKind.inRange at hv
      simp only [hsigt, if_true] at hv
      simpa using hv
    have hc : ((2 ^ (k.bits - 1) : Nat) : Int) = (2 : Int) ^ (k.bits - 1) := by push_cast; ring
    have hhalf : (2 : Int) ^ k.bits = (2 : Int) ^ (k.bits - 1) * 2 := by
      have h2 : k.bits - 1 + 1 = k.bits := by omega
      conv_lhs => rw [← h2]
      rw [pow_succ]
    by_cases h0 : 0 ≤ v
    · have hmod : v % (2 : Int) ^ k.bits = v := Int.emod_eq_of_lt h0 (by omega)
      rw [hmod, leBytesToNat_natLeBytes _ _ (by omega), hsigt]
      have : ((v.toNat : Nat) : Int) = v := by omega
      rw [this]
      exact castToWidth_true_nonneg k.bits h0 hrange.2 (by omega)
    · have hmod : v % (2 : Int) ^ k.bits = v + (2 : Int) ^ k.bits :=
        int_emod_of_neg (by positivity) (by omega) (by omega)
      rw [hmod, leBytesToNat_natLeBytes _ _ (by omega), hsigt]
      have hcast : (((v + (2 : Int) ^ k.bits).toNat : Nat) : Int) = v + (2 : Int) ^ k.bits := by
        omega
      rw [hcast]
      have heq : castToWidth k.bits true (v + (2 : Int) ^ k.bits) = castToWidth k.bits true v := by
        unfold castToWidth
        have : (v + (2 : Int) ^ k.bits) % (2 : Int) ^ k.bits = v % (2 : Int) ^ k.bits := by
          have := Int.add_mul_emod_self_left v ((2 : Int) ^ k.bits) 1
          simp only [Int.mul_one] at this
          exact this
        rw [this]
      rw [heq]
      exact castToWidth_true_neg k.bits (by omega) hrange.1 (by omega)
  · have hsigf : k.signed = false := by simpa using hsig
    have hrange : 0 ≤ v ∧ v < (2 : Int) ^ k.bits := by
      unfold IntKind.inRange at hv
      simp only [hsigf, Bool.false_eq_true, if_false] at hv
      simpa using hv
    have hmod : v % (2 : Int) ^ k.bits = v := Int.emod_eq_of_lt hrange.1 hrange.2
    rw [hmod, leBytesToNat_natLeBytes _ _ (by omega), hsigf]
    have : ((v.toNat : Nat) : Int) = v := by omega
    rw [this]
    exact castToWidth_false_eq k.bits (by omega) (by omega)

/-! ## Bit-stream writer (`writer.rs`, `BitWriterRef`)

The writer state holds the bytes already emitted to the underlying `Vec`,
the 64-bit staging word, the number of valid staged bits, and the clamped
width.  The Rust `while` loops become structural recursion on an iteration
budget that dominates the number of iterations the loop can make: the byte
drain runs at most `bit_count / 8` times, and the chunk loop of
`write_value` consumes at least one of the `bits_to_write` bits in every
iteration except at most one. -/

structure BitWriterState where
  out : List Nat
  bits : Nat
  bit_count : Nat
  width : Nat
  deriving DecidableEq, Repr

/-- The constructor `BitWriterRef::new` (over an empty output vector):
the requested width is clamped to the type width. -/
def bwNew (k : IntKind) (width : Nat) : BitWriterState :=
  { out := [], bits := 0, bit_count := 0, width := clamp_width_to_type k width }

/-- The inner loop `while self.bit_count >= 8` that emits full bytes. -/
def bwDrainAux : Nat → BitWriterState → BitWriterState
  | 0, st => st
  | fuel + 1, st =>
    if 8 ≤ st.bit_count then
      bwDrainAux fuel
        { st with out := st.out ++ [st.bits % 256], bits := st.bits >>> 8,
                  bit_count := st.bit_count - 8 }
    else st

def bwDrain (st : BitWriterState) : BitWriterState := bwDrainAux st.bit_count st

/-- The chunk loop of `BitWriterRef::write_value` (`while bits_to_write > 0`). -/
def bwWriteAux : Nat → Nat → Nat → BitWriterState → BitWriterState
  | 0, _, _, st => st
  | fuel + 1, encoded, btw, st =>
    if btw = 0 then st
    else
      let space := 64 - st.bit_count
      let chunk := min btw space
      let st1 :=
        if 0 < chunk then
          let mask := if chunk = 64 then 2 ^ 64 - 1 else 2 ^ chunk - 1
          { st with bits := st.bits ||| ((encoded &&& mask) <<< st.bit_count) % 2 ^ 64,
                    bit_count := st.bit_count + chunk }
        else st
      let encoded1 := if 0 < chunk then encoded >>> chunk else encoded
      bwWriteAux fuel encoded1 (btw - chunk) (bwDrain st1)

/-- `BitWriterRef::write_value`.  A budget of `width + 1` outer iterations is
exact: every iteration removes `min btw (64 - bit_count) ≥ 1` pending bits
except at most one with a full staging word. -/
def bwWriteValue (k : IntKind) (st : BitWriterState) (v : Int) : BitWriterState :=
  bwWriteAux (st.width + 1) (k.encode v) st.width st

/-- `BitWriterRef::flush`: drain whole bytes, then pad the trailing bits. -/
def bwFlush (st : BitWriterState) : BitWriterState :=
  if 0 < st.bit_count then
    let st1 := bwDrain st
    if 0 < st1.bit_count then
      { st1 with out := st1.out ++ [st1.bits % 256], bits := 0, bit_count := 0 }
    else st1
  else st

def bwWriteValues (k : IntKind) (st : BitWriterState) (vs : List Int) : BitWriterState :=
  vs.foldl (bwWriteValue k) st

/-! ### Writer lemmas: the emitted stream is the values' low bits, LSB first -/

/-- Value of a byte list read as one little-endian number. -/
def bytesVal : List Nat → Nat
  | [] => 0
  | b :: t => b + 256 * bytesVal t

def byteOK (l : List Nat) : Prop := ∀ b ∈ l, b < 256

/-- Total bit content of a writer: emitted bytes plus the staging word. -/
def bwContent (st : BitWriterState) : Nat :=
  bytesVal st.out + st.bits * 2 ^ (8 * st.out.length)

/-- Total number of bits a writer holds. -/
def bwBitLen (st : BitWriterState) : Nat := 8 * st.out.length + st.bit_count

/-- The value packed from a list of codes at `w` bits per code, LSB first. -/
def packedNat (w : Nat) : List Nat → Nat
  | [] => 0
  | c :: t => c % 2 ^ w + 2 ^ w * packedNat w t

theorem bytesVal_append (l1 l2 : List Nat) :
    bytesVal (l1 ++ l2) = bytesVal l1 + bytesVal l2 * 2 ^ (8 * l1.length) := by
  induction l1 with
  | nil => simp [bytesVal]
  | cons b t ih =>
    have hpow : (2 : Nat) ^ (8 * (t.length + 1)) = 2 ^ (8 * t.length) * 256 := by
      rw [show 8 * (t.length + 1) = 8 * t.length + 8 by ring, pow_add]
      norm_num
    show b + 256 * bytesVal (t ++ l2) = bytesVal (b :: t) + bytesVal l2 * 2 ^ (8 * (b :: t).length)
    rw [ih]
    show b + 256 * (bytesVal t + bytesVal l2 * 2 ^ (8 * t.length)) =
      (b + 256 * bytesVal t) + bytesVal l2 * 2 ^ (8 * (t.length + 1))
    rw [hpow]
    ring

theorem bwDrainAux_spec (fuel : Nat) : ∀ st : BitWriterState,
    st.bits < 2 ^ st.bit_count → 8 * fuel + 7 ≥ st.bit_count →
    (bwDrainAux fuel st).bit_count < 8 ∧
    (bwDrainAux fuel st).bits < 2 ^ (bwDrainAux fuel st).bit_count ∧
    bwBitLen (bwDrainAux fuel st) = bwBitLen st ∧
    bwContent (bwDrainAux fuel st) = bwContent st ∧
    (bwDrainAux fuel st).width = st.width ∧
    (byteOK st.out → byteOK (bwDrainAux fuel st).out) := by
  induction fuel with
  | zero =>
    intro st hinv hfuel
    have h0 : bwDrainAux 0 st = st := rfl
    rw [h0]
    exact ⟨by omega, hinv, rfl, rfl, rfl, fun h => h⟩
  | succ f ih =>
    intro st hinv hfuel
    by_cases hbc : 8 ≤ st.bit_count
    · set st1 : BitWriterState :=
        { st with out := st.out ++ [st.bits % 256], bits := st.bits >>> 8,
                  bit_count := st.bit_count - 8 } with hst1
      have hunfold : bwDrainAux (f + 1) st = bwDrainAux f st1 := by
        rw [bwDrainAux, if_pos hbc]
      have hbits8 : st1.bits < 2 ^ st1.bit_count := by
        rw [hst1]
        simp only
        rw [Nat.shiftRight_eq_div_pow]
        have hsplit : (2 : Nat) ^ st.bit_count = 2 ^ (st.bit_count - 8) * 2 ^ 8 := by
          rw [← pow_add]
          congr 1
          omega
        rw [Nat.div_lt_iff_lt_mul (by norm_num : 0 < (2 : Nat) ^ 8)]
        omega
      have hres := ih st1 hbits8 (by rw [hst1]; simp only; omega)
      have hlen1 : bwBitLen st1 = bwBitLen st := by
        rw [hst1]
        simp only [bwBitLen, List.length_append, List.length_cons, List.length_nil]
        omega
      have hcon1 : bwContent st1 = bwContent st := by
        rw [hst1]
        simp only [bwContent, bytesVal_append, List.length_append, List.length_cons,
          List.length_nil, bytesVal]
        rw [Nat.shiftRight_eq_div_pow]
        have hpow : (2 : Nat) ^ (8 * (st.out.length + 1)) = 2 ^ (8 * st.out.length) * 256 := by
          rw [show 8 * (st.out.length + 1) = 8 * st.out.length + 8 by ring, pow_add]
          norm_num

        have hdm : st.bits % 256 + 256 * (st.bits / 2 ^ 8) = st.bits := by
          have := Nat.div_add_mod st.bits 256
          norm_num
          omega
        calc bytesVal st.out + (st.bits % 256 + 256 * 0) * 2 ^ (8 * st.out.length)
              + st.bits / 2 ^ 8 * 2 ^ (8 * (st.out.length + 1))
            = bytesVal st.out +
              (st.bits % 256 + 256 * (st.bits / 2 ^ 8)) * 2 ^ (8 * st.out.length) := by
              rw [hpow]
              ring
          _ = bytesVal st.out + st.bits * 2 ^ (8 * st.out.length) := by rw [hdm]
      have hok1 : byteOK st.out → byteOK st1.out := by
        intro hok
        rw [hst1]
        intro b hb
        simp only [List.mem_append, List.mem_cons] at hb
        rcases hb with h | h
        · exact hok b h
        · simp only [List.not_mem_nil, or_false] at h
          omega
      rw [hunfold]
      refine ⟨hres.1, hres.2.1, ?_, ?_, hres.2.2.2.2.1, fun h => hres.2.2.2.2.2 (hok1 h)⟩
      · rw [hres.2.2.1, hlen1]
      · rw [hres.2.2.2.1, hcon1]
    · have hunfold : bwDrainAux (f + 1) st = st := by
        rw [bwDrainAux, if_neg hbc]
      rw [hunfold]
      exact ⟨by omega, hinv, rfl, rfl, rfl, fun h => h⟩

theorem bwDrain_spec (st : BitWriterState) (hinv : st.bits < 2 ^ st.bit_count) :
    (bwDrain st).bit_count < 8 ∧
    (bwDrain st).bits < 2 ^ (bwDrain st).bit_count ∧
    bwBitLen (bwDrain st) = bwBitLen st ∧
    bwContent (bwDrain st) = bwContent st ∧
    (bwDrain st).width = st.width ∧
    (byteOK st.out → byteOK (bwDrain st).out) :=
  bwDrainAux_spec st.bit_count st hinv (by omega)

theorem bwWriteAux_spec (fuel : Nat) : ∀ (encoded btw : Nat) (st : BitWriterState),
    btw < fuel → btw ≤ 64 → st.bits < 2 ^ st.bit_count → st.bit_count < 8 →
    (bwWriteAux fuel encoded btw st).bits < 2 ^ (bwWriteAux fuel encoded btw st).bit_count ∧
    (bwWriteAux fuel encoded btw st).bit_count < 8 ∧
    bwBitLen (bwWriteAux fuel encoded btw st) = bwBitLen st + btw ∧
    bwContent (bwWriteAux fuel encoded btw st) =
      bwContent st + encoded % 2 ^ btw * 2 ^ bwBitLen st ∧
    (bwWriteAux fuel encoded btw st).width = st.width ∧
    (byteOK st.out → byteOK (bwWriteAux fuel encoded btw st).out) := by
  induction fuel with
  | zero =>
    intro encoded btw st hfuel _ _ _
    omega
  | succ f ih =>
    intro encoded btw st hfuel hbtw hinv hbc
    by_cases h0 : btw = 0
    · have hunfold : bwWriteAux (f + 1) encoded btw st = st := by
        rw [bwWriteAux, if_pos h0]
      rw [hunfold, h0]
      exact ⟨hinv, hbc, by omega, by simp [Nat.mod_one], rfl, fun h => h⟩
    · have hspace : 64 - st.bit_count ≥ 57 := by omega
      set chunk := min btw (64 - st.bit_count) with hchunk
      have hchunk1 : 1 ≤ chunk := by omega
      have hchunk64 : chunk + st.bit_count ≤ 64 := by omega
      have hchunkbtw : chunk ≤ btw := by omega
      set mask := if chunk = 64 then 2 ^ 64 - 1 else 2 ^ chunk - 1 with hmaskdef
      have hmask : mask = 2 ^ chunk - 1 := by
        rw [hmaskdef]
        split
        · rename_i h
          rw [h]
        · rfl
      set st1 : BitWriterState :=
        { st with bits := st.bits ||| ((encoded &&& mask) <<< st.bit_count) % 2 ^ 64,
                  bit_count := st.bit_count + chunk } with hst1
      have hcpos : 0 < chunk := by omega
      have hunfold : bwWriteAux (f + 1) encoded btw st =
          bwWriteAux f (encoded >>> chunk) (btw - chunk) (bwDrain st1) := by
        rw [bwWriteAux, if_neg h0]
        simp only [← hchunk, ← hmaskdef, ← hst1, hcpos, if_true]
      have hshl : (encoded &&& mask) <<< st.bit_count % 2 ^ 64 =
          encoded % 2 ^ chunk * 2 ^ st.bit_count := by
        rw [hmask, and_two_pow_sub_one, Nat.shiftLeft_eq]
        apply Nat.mod_eq_of_lt
        calc encoded % 2 ^ chunk * 2 ^ st.bit_count
            < 2 ^ chunk * 2 ^ st.bit_count := by
              have := Nat.mod_lt encoded (Nat.two_pow_pos chunk)
              exact (Nat.mul_lt_mul_right (Nat.two_pow_pos st.bit_count)).mpr this
          _ = 2 ^ (chunk + st.bit_count) := by rw [← pow_add]
          _ ≤ 2 ^ 64 := Nat.pow_le_pow_right (by omega) hchunk64
      have hbits1 : st1.bits = st.bits + encoded % 2 ^ chunk * 2 ^ st.bit_count := by
        rw [hst1]
        simp only
        rw [hshl]
        exact or_mul_two_pow_eq_add (encoded % 2 ^ chunk) hinv
      have hinv1 : st1.bits < 2 ^ st1.bit_count := by
        rw [hbits1, hst1]
        simp only
        have h1 : encoded % 2 ^ chunk < 2 ^ chunk :=
          Nat.mod_lt encoded (Nat.two_pow_pos chunk)
        calc st.bits + encoded % 2 ^ chunk * 2 ^ st.bit_count
            < 2 ^ st.bit_count + (2 ^ chunk - 1) * 2 ^ st.bit_count := by
              have : encoded % 2 ^ chunk ≤ 2 ^ chunk - 1 := by omega
              have h2 : encoded % 2 ^ chunk * 2 ^ st.bit_count ≤
                  (2 ^ chunk - 1) * 2 ^ st.bit_count :=
                Nat.mul_le_mul_right _ this
              omega
          _ = 2 ^ chunk * 2 ^ st.bit_count := by
              have hp : 1 ≤ 2 ^ chunk := Nat.one_le_two_pow
              have : (2 ^ chunk - 1) * 2 ^ st.bit_count + 1 * 2 ^ st.bit_count =
                  2 ^ chunk * 2 ^ st.bit_count := by
                rw [← Nat.add_mul]
                congr 1
                omega
              omega
          _ = 2 ^ (st.bit_count + chunk) := by rw [← pow_add, Nat.add_comm]
      have hlen1 : bwBitLen st1 = bwBitLen st + chunk := by
        rw [hst1]
        simp only [bwBitLen]
        omega
      have hcon1 : bwContent st1 = bwContent st + encoded % 2 ^ chunk * 2 ^ bwBitLen st := by
        simp only [bwContent, bwBitLen, hst1]
        rw [hshl, or_mul_two_pow_eq_add (encoded % 2 ^ chunk) hinv, pow_add]
        ring
      have hdr := bwDrain_spec st1 hinv1
      have hres := ih (encoded >>> chunk) (btw - chunk) (bwDrain st1)
        (by omega) (by omega) hdr.2.1 hdr.1
      rw [hunfold]
      refine ⟨hres.1, hres.2.1, ?_, ?_, ?_, ?_⟩
      · rw [hres.2.2.1, hdr.2.2.1, hlen1]
        omega
      · rw [hres.2.2.2.1, hdr.2.2.2.1, hcon1, hdr.2.2.1, hlen1]
        have hsplit : encoded % 2 ^ btw =
            encoded % 2 ^ chunk + 2 ^ chunk * (encoded / 2 ^ chunk % 2 ^ (btw - chunk)) := by
          have := mod_pow_split encoded chunk (btw - chunk)
          rw [show chunk + (btw - chunk) = btw by omega] at this
          exact this
        rw [Nat.shiftRight_eq_div_pow, hsplit]
        have hpw : (2 : Nat) ^ (bwBitLen st + chunk) = 2 ^ bwBitLen st * 2 ^ chunk := by
          rw [← pow_add]
        rw [hpw]
        ring
      · rw [hres.2.2.2.2.1, hdr.2.2.2.2.1, hst1]
      · intro hok
        apply hres.2.2.2.2.2
        apply hdr.2.2.2.2.2
        rw [hst1]
        exact hok

theorem bwWriteValue_spec (k : IntKind) (st : BitWriterState) (v : Int)
    (hw : st.width ≤ 64) (hinv : st.bits < 2 ^ st.bit_count) (hbc : st.bit_count < 8) :
    (bwWriteValue k st v).bits < 2 ^ (bwWriteValue k st v).bit_count ∧
    (bwWriteValue k st v).bit_count < 8 ∧
    bwBitLen (bwWriteValue k st v) = bwBitLen st + st.width ∧
    bwContent (bwWriteValue k st v) =
      bwContent st + k.encode v % 2 ^ st.width * 2 ^ bwBitLen st ∧
    (bwWriteValue k st v).width = st.width ∧
    (byteOK st.out → byteOK (bwWriteValue k st v).out) :=
  bwWriteAux_spec (st.width + 1) (k.encode v) st.width st (by omega) hw hinv hbc

theorem bwWriteValues_spec (k : IntKind) (vs : List Int) : ∀ st : BitWriterState,
    st.width ≤ 64 → st.bits < 2 ^ st.bit_count → st.bit_count < 8 →
    (bwWriteValues k st vs).bits < 2 ^ (bwWriteValues k st vs).bit_count ∧
    (bwWriteValues k st vs).bit_count < 8 ∧
    bwBitLen (bwWriteValues k st vs) = bwBitLen st + vs.length * st.width ∧
    bwContent (bwWriteValues k st vs) =
      bwContent st + packedNat st.width (vs.map k.encode) * 2 ^ bwBitLen st ∧
    (bwWriteValues k st vs).width = st.width ∧
    (byteOK st.out → byteOK (bwWriteValues k st vs).out) := by
  induction vs with
  | nil =>
    intro st hw hinv hbc
    exact ⟨hinv, hbc, by simp [bwWriteValues], by simp [bwWriteValues, packedNat], rfl,
      fun h => h⟩
  | cons v vs ih =>
    intro st hw hinv hbc
    have hstep := bwWriteValue_spec k st v hw hinv hbc
    have hunfold : bwWriteValues k st (v :: vs) = bwWriteValues k (bwWriteValue k st v) vs := rfl
    have hres := ih (bwWriteValue k st v) (by rw [hstep.2.2.2.2.1]; exact hw) hstep.1 hstep.2.1
    rw [hunfold]
    refine ⟨hres.1, hres.2.1, ?_, ?_, ?_, ?_⟩
    · rw [hres.2.2.1, hstep.2.2.1, hstep.2.2.2.2.1]
      simp only [List.length_cons]
      ring
    · rw [hres.2.2.2.1, hstep.2.2.2.1, hstep.2.2.2.2.1, hstep.2.2.1]
      simp only [List.map_cons, packedNat]
      have hpw : (2 : Nat) ^ (bwBitLen st + st.width) = 2 ^ bwBitLen st * 2 ^ st.width := by
        rw [← pow_add]
      rw [hpw]
      ring
    · rw [hres.2.2.2.2.1, hstep.2.2.2.2.1]
    · intro hok
      exact hres.2.2.2.2.2 (hstep.2.2.2.2.2 hok)

/-- After a flush, the emitted bytes carry exactly the writer content,
padded with zero bits to the next whole byte. -/
theorem bwFlush_spec (st : BitWriterState) (hinv : st.bits < 2 ^ st.bit_count)
    (hbc : st.bit_count < 8) :
    bytesVal (bwFlush st).out = bwContent st ∧
    (bwFlush st).out.length = (bwBitLen st + 7) / 8 ∧
    (byteOK st.out → byteOK (bwFlush st).out) := by
  by_cases h0 : 0 < st.bit_count
  · have hdrain : bwDrain st = st := by
      unfold bwDrain
      have : ∀ f, bwDrainAux f st = st := by
        intro f
        cases f with
        | zero => rfl
        | succ f => rw [bwDrainAux, if_neg (by omega)]
      exact this st.bit_count
    have hunfold : bwFlush st =
        { st with out := st.out ++ [st.bits % 256], bits := 0, bit_count := 0 } := by
      unfold bwFlush
      rw [if_pos h0, hdrain, if_pos h0]
    rw [hunfold]
    have hmod : st.bits % 256 = st.bits := by
      apply Nat.mod_eq_of_lt
      have : (2 : Nat) ^ st.bit_count ≤ 2 ^ 8 := Nat.pow_le_pow_right (by omega) (by omega)
      norm_num at this ⊢
      omega
    refine ⟨?_, ?_, ?_⟩
    · simp only [bytesVal_append, bytesVal, bwContent, hmod]
      ring
    · simp only [List.length_append, List.length_cons, List.length_nil, bwBitLen]
      omega
    · intro hok b hb
      simp only [List.mem_append, List.mem_cons, List.not_mem_nil, or_false] at hb
      rcases hb with h | h
      · exact hok b h
      · omega
  · have hbits : st.bits = 0 := by
      have : (2 : Nat) ^ st.bit_count = 1 := by
        have hz : st.bit_count = 0 := by omega
        rw [hz, Nat.pow_zero]
      omega
    have hunfold : bwFlush st = st := by
      unfold bwFlush
      rw [if_neg h0]
    rw [hunfold]
    refine ⟨?_, ?_, fun h => h⟩
    · simp [bwContent, hbits]
    · simp only [bwBitLen]
      omega

/-! ## Bit-stream reader (`reader.rs`)

The reader state is the unread bytes of the source together with the staged
bits.  The internal 512-byte buffer of `BitReader` is transparent over a
byte list: the refill loop consumes one byte per iteration, and `read`
returns bytes exactly while the source is non-empty.  The slow-path loop
`while bits_read < width` takes at least one bit per iteration, so a budget
of `width` iterations is exact. -/

structure BitReaderState where
  input : List Nat
  bits : Nat
  bit_count : Nat
  deriving DecidableEq, Repr

/-- The slow-path loop of `BitReader::read_bits`. -/
def brReadAux : Nat → Nat → Nat → Nat → BitReaderState → Except EKind (Nat × BitReaderState)
  | 0, width, result, bits_read, st =>
    if bits_read < width then .error .unexpectedEof else .ok (result, st)
  | fuel + 1, width, result, bits_read, st =>
    if bits_read < width then
      match st.input with
      | [] => .error .unexpectedEof
      | byte :: rest =>
        let bits_needed := width - bits_read
        let bits_from_byte := min bits_needed 8
        let result1 := result ||| (byte &&& (2 ^ bits_from_byte - 1)) <<< bits_read
        let st1 :=
          if bits_from_byte < 8 then
            { input := rest, bits := byte >>> bits_from_byte,
              bit_count := 8 - bits_from_byte }
          else
            { input := rest, bits := st.bits, bit_count := st.bit_count }
        brReadAux fuel width result1 (bits_read + bits_from_byte) st1
    else .ok (result, st)

/-- `BitReader::read_bits`. -/
def brReadBits (st : BitReaderState) (width : Nat) : Except EKind (Nat × BitReaderState) :=
  if width = 0 then .ok (0, st)
  else if 64 < width then .error .invalidInput
  else if width ≤ st.bit_count then
    let mask := if width = 64 then 2 ^ 64 - 1 else 2 ^ width - 1
    .ok (st.bits &&& mask,
      { st with bits := st.bits >>> width, bit_count := st.bit_count - width })
  else
    brReadAux width width st.bits st.bit_count { st with bits := 0, bit_count := 0 }

/-- Run of `BitStream::with_count` pulled to exhaustion: the decoded values,
and the terminal error the iterator yields, if any (a clean EOF between
values ends the stream without an error). -/
def bsRun (k : IntKind) (width : Nat) : Nat → BitReaderState → List Int × Option EKind
  | 0, _ => ([], none)
  | n + 1, st =>
    match brReadBits st width with
    | .ok (raw, st1) =>
      let r := bsRun k width n st1
      (k.decode raw :: r.1, r.2)
    | .error .unexpectedEof => ([], none)
    | .error e => ([], some e)

/-- Remaining bit content of a reader, LSB first. -/
def brContent (st : BitReaderState) : Nat := st.bits + bytesVal st.input * 2 ^ st.bit_count

/-- Remaining number of bits a reader holds. -/
def brBitLen (st : BitReaderState) : Nat := st.bit_count + 8 * st.input.length

theorem brReadAux_zero (width result bits_read : Nat) (st : BitReaderState) :
    brReadAux 0 width result bits_read st =
      if bits_read < width then .error .unexpectedEof else .ok (result, st) := rfl

theorem brReadAux_succ_done (f width result bits_read : Nat) (st : BitReaderState)
    (hbr : ¬ bits_read < width) :
    brReadAux (f + 1) width result bits_read st = .ok (result, st) := by
  rw [brReadAux, if_neg hbr]

theorem brReadAux_succ_nil (f width result bits_read : Nat) (bits bc : Nat)
    (hbr : bits_read < width) :
    brReadAux (f + 1) width result bits_read ⟨[], bits, bc⟩ = .error .unexpectedEof := by
  rw [brReadAux, if_pos hbr]

theorem brReadAux_succ_part (f width result bits_read byte : Nat) (rest : List Nat)
    (bits bc : Nat) (hbr : bits_read < width) (hpart : min (width - bits_read) 8 < 8) :
    brReadAux (f + 1) width result bits_read ⟨byte :: rest, bits, bc⟩ =
      brReadAux f width
        (result ||| (byte &&& (2 ^ min (width - bits_read) 8 - 1)) <<< bits_read)
        (bits_read + min (width - bits_read) 8)
        ⟨rest, byte >>> min (width - bits_read) 8, 8 - min (width - bits_read) 8⟩ := by
  rw [brReadAux, if_pos hbr]
  simp only [hpart, if_true]

theorem brReadAux_succ_full (f width result bits_read byte : Nat) (rest : List Nat)
    (bits bc : Nat) (hbr : bits_read < width) (hfull : ¬ min (width - bits_read) 8 < 8) :
    brReadAux (f + 1) width result bits_read ⟨byte :: rest, bits, bc⟩ =
      brReadAux f width
        (result ||| (byte &&& (2 ^ min (width - bits_read) 8 - 1)) <<< bits_read)
        (bits_read + min (width - bits_read) 8) ⟨rest, bits, bc⟩ := by
  rw [brReadAux, if_pos hbr]
  simp only [hfull, if_false]

theorem brReadAux_spec (fuel : Nat) : ∀ (width result bits_read : Nat) (input : List Nat),
    byteOK input → result < 2 ^ bits_read → width ≤ 64 → width - bits_read ≤ fuel →
    (width - bits_read ≤ 8 * input.length →
      ∃ st1 : BitReaderState,
        brReadAux fuel width result bits_read ⟨input, 0, 0⟩ =
          .ok (result + bytesVal input % 2 ^ (width - bits_read) * 2 ^ bits_read, st1) ∧
        brContent st1 = bytesVal input / 2 ^ (width - bits_read) ∧
        brBitLen st1 = 8 * input.length - (width - bits_read) ∧
        st1.bits < 2 ^ st1.bit_count ∧ byteOK st1.input) ∧
    (8 * input.length < width - bits_read →
      brReadAux fuel width result bits_read ⟨input, 0, 0⟩ = .error .unexpectedEof) := by
  induction fuel with
  | zero =>
    intro width result bits_read input hok hres hw hfuel
    constructor
    · intro hen
      have hbr : ¬ bits_read < width := by omega
      have hz : width - bits_read = 0 := by omega
      refine ⟨⟨input, 0, 0⟩, ?_, ?_, ?_, by simp, hok⟩
      · rw [brReadAux_zero, if_neg hbr, hz]
        simp [Nat.mod_one]
      · rw [hz]
        simp [brContent]
      · rw [hz]
        simp [brBitLen]
    · intro hlt
      omega
  | succ f ih =>
    intro width result bits_read input hok hres hw hfuel
    by_cases hbr : bits_read < width
    · match input with
      | [] =>
        constructor
        · intro hen
          simp only [List.length_nil] at hen
          omega
        · intro _
          exact brReadAux_succ_nil f width result bits_read 0 0 hbr
      | byte :: rest =>
        have hbyte : byte < 256 := hok byte (by simp)
        have hrestok : byteOK rest := fun b hb => hok b (by simp [hb])
        obtain ⟨bits_from_byte, hbfb⟩ : ∃ b, b = min (width - bits_read) 8 := ⟨_, rfl⟩
        have hbfb1 : 1 ≤ bits_from_byte := by rw [hbfb]; omega
        have hbfb8 : bits_from_byte ≤ 8 := by rw [hbfb]; omega
        have hiharg : width - (bits_read + bits_from_byte) ≤ f := by omega
        have hA : width - bits_read ≤ 8 * (rest.length + 1) →
            width - (bits_read + bits_from_byte) ≤ 8 * rest.length := by omega
        have hB : 8 * (rest.length + 1) < width - bits_read →
            8 * rest.length < width - (bits_read + bits_from_byte) := by omega
        obtain ⟨result1, hres1def⟩ :
          ∃ r, r = result ||| (byte &&& (2 ^ bits_from_byte - 1)) <<< bits_read := ⟨_, rfl⟩
        have hres1 : result1 = result + byte % 2 ^ bits_from_byte * 2 ^ bits_read := by
          rw [hres1def, and_two_pow_sub_one, Nat.shiftLeft_eq]
          exact or_mul_two_pow_eq_add (byte % 2 ^ bits_from_byte) hres
        have hres1lt : result1 < 2 ^ (bits_read + bits_from_byte) := by
          have h1 : byte % 2 ^ bits_from_byte < 2 ^ bits_from_byte :=
            Nat.mod_lt byte (Nat.two_pow_pos _)
          have hkey : byte % 2 ^ bits_from_byte * 2 ^ bits_read + 2 ^ bits_read ≤
              2 ^ bits_from_byte * 2 ^ bits_read := by
            have hm : (byte % 2 ^ bits_from_byte + 1) * 2 ^ bits_read ≤
                2 ^ bits_from_byte * 2 ^ bits_read :=
              mul_le_mul_right' (by omega) (2 ^ bits_read)
            rw [Nat.add_mul, Nat.one_mul] at hm
            exact hm
          have h4 : (2 : Nat) ^ (bits_read + bits_from_byte) =
              2 ^ bits_read * 2 ^ bits_from_byte := pow_add 2 _ _
          have h5 : (2 : Nat) ^ bits_read * 2 ^ bits_from_byte =
              2 ^ bits_from_byte * 2 ^ bits_read := Nat.mul_comm _ _
          rw [hres1, h4, h5]
          omega
        by_cases hpart : bits_from_byte < 8
        · -- final partial byte: the loop exits on the next test
          have hexit : bits_read + bits_from_byte = width := by omega
          have hstep := brReadAux_succ_part f width result bits_read byte rest 0 0 hbr
            (by rw [← hbfb]; exact hpart)
          rw [← hbfb, ← hres1def] at hstep
          have hdone : brReadAux f width result1 (bits_read + bits_from_byte)
              ⟨rest, byte >>> bits_from_byte, 8 - bits_from_byte⟩ =
              .ok (result1, ⟨rest, byte >>> bits_from_byte, 8 - bits_from_byte⟩) := by
            cases f with
            | zero => rw [brReadAux_zero, if_neg (by omega)]
            | succ f2 => exact brReadAux_succ_done f2 width result1 _ _ (by omega)
          have hfb : bits_from_byte = width - bits_read := by omega
          constructor
          · intro hen
            refine ⟨⟨rest, byte >>> bits_from_byte, 8 - bits_from_byte⟩, ?_, ?_, ?_, ?_,
              hrestok⟩
            · rw [hstep, hdone, hres1]
              have hmodsmall : bytesVal (byte :: rest) % 2 ^ (width - bits_read) =
                  byte % 2 ^ bits_from_byte := by
                show (byte + 256 * bytesVal rest) % 2 ^ (width - bits_read) = _
                have h256 : (256 : Nat) =
                    2 ^ (width - bits_read) * 2 ^ (8 - (width - bits_read)) := by
                  rw [← pow_add]
                  have h8 : width - bits_read + (8 - (width - bits_read)) = 8 := by omega
                  rw [h8]
                  norm_num
                rw [hfb, h256]
                have hassoc : byte +
                    2 ^ (width - bits_read) * 2 ^ (8 - (width - bits_read)) * bytesVal rest =
                    byte + 2 ^ (width - bits_read) *
                      (2 ^ (8 - (width - bits_read)) * bytesVal rest) := by ring
                rw [hassoc, Nat.add_mul_mod_self_left]
              rw [hmodsmall]
            · simp only [brContent]
              rw [Nat.shiftRight_eq_div_pow]
              show byte / 2 ^ bits_from_byte + bytesVal rest * 2 ^ (8 - bits_from_byte) =
                bytesVal (byte :: rest) / 2 ^ (width - bits_read)
              rw [← hfb]
              show byte / 2 ^ bits_from_byte + bytesVal rest * 2 ^ (8 - bits_from_byte) =
                (byte + 256 * bytesVal rest) / 2 ^ bits_from_byte
              have h256 : (256 : Nat) = 2 ^ bits_from_byte * 2 ^ (8 - bits_from_byte) := by
                rw [← pow_add]
                have h8 : bits_from_byte + (8 - bits_from_byte) = 8 := by omega
                rw [h8]
                norm_num
              rw [h256]
              have hassoc : byte + 2 ^ bits_from_byte * 2 ^ (8 - bits_from_byte) * bytesVal rest =
                  byte + 2 ^ bits_from_byte * (2 ^ (8 - bits_from_byte) * bytesVal rest) := by
                ring
              rw [hassoc, Nat.add_mul_div_left _ _ (Nat.two_pow_pos _)]
              ring
            · simp only [brBitLen, List.length_cons]
              omega
            · simp only
              rw [Nat.shiftRight_eq_div_pow, Nat.div_lt_iff_lt_mul (Nat.two_pow_pos _)]
              have hb2 : byte < 2 ^ (8 - bits_from_byte) * 2 ^ bits_from_byte := by
                rw [← pow_add]
                have h8 : 8 - bits_from_byte + bits_from_byte = 8 := by omega
                rw [h8]
                norm_num
                omega
              exact hb2
          · intro hlt
            simp only [List.length_cons] at hlt
            omega
        · -- a full byte is consumed and the loop continues
          have hfb8 : bits_from_byte = 8 := by omega
          have hsplit : width - bits_read = 8 + (width - (bits_read + 8)) := by omega
          have hbm : byte % 2 ^ 8 = byte := Nat.mod_eq_of_lt (by omega)
          have hb8 : byte < 2 ^ 8 := by omega
          have h256 : (256 : Nat) = 2 ^ 8 := by norm_num
          have hlen2 : 8 * rest.length - (width - (bits_read + 8)) =
              8 * (rest.length + 1) - (width - bits_read) := by omega
          have hstep := brReadAux_succ_full f width result bits_read byte rest 0 0 hbr
            (by rw [← hbfb]; exact hpart)
          rw [← hbfb, ← hres1def] at hstep
          have hih := ih width result1 (bits_read + bits_from_byte) rest hrestok
            hres1lt hw hiharg
          have hdecomp : bytesVal (byte :: rest) % 2 ^ (width - bits_read) =
              byte + 2 ^ 8 * (bytesVal rest % 2 ^ (width - (bits_read + 8))) := by
            show (byte + 256 * bytesVal rest) % 2 ^ (width - bits_read) = _
            rw [hsplit, mod_pow_split]
            have h1 : (byte + 256 * bytesVal rest) % 2 ^ 8 = byte := by
              rw [h256, Nat.add_mul_mod_self_left]
              exact hbm
            have h2 : (byte + 256 * bytesVal rest) / 2 ^ 8 = bytesVal rest := by
              rw [h256, Nat.add_mul_div_left _ _ (Nat.two_pow_pos 8)]
              rw [Nat.div_eq_of_lt hb8]
              exact Nat.zero_add _
            rw [h1, h2]
          constructor
          · intro hen
            simp only [List.length_cons] at hen
            obtain ⟨st1, heq, hcon, hlen, hinv1, hok1⟩ := hih.1 (hA hen)
            refine ⟨st1, ?_, ?_, ?_, hinv1, hok1⟩
            · have hval : result1 + bytesVal rest % 2 ^ (width - (bits_read + bits_from_byte)) *
                  2 ^ (bits_read + bits_from_byte) =
                  result + bytesVal (byte :: rest) % 2 ^ (width - bits_read) * 2 ^ bits_read := by
                rw [hres1, hfb8, hdecomp]
                have hpw : (2 : Nat) ^ (bits_read + 8) = 2 ^ bits_read * 2 ^ 8 := pow_add 2 _ _
                rw [hbm, hpw]
                ring
              rw [hstep, heq, hval]
            · rw [hcon, hfb8]
              show bytesVal rest / 2 ^ (width - (bits_read + 8)) =
                bytesVal (byte :: rest) / 2 ^ (width - bits_read)
              rw [hsplit]
              show bytesVal rest / 2 ^ (width - (bits_read + 8)) =
                (byte + 256 * bytesVal rest) / 2 ^ (8 + (width - (bits_read + 8)))
              rw [h256, ← div_pow_split byte (bytesVal rest) 8 (width - (bits_read + 8)) hb8]
            · rw [hlen, hfb8]
              simp only [List.length_cons]
              exact hlen2
          · intro hlt
            simp only [List.length_cons] at hlt
            rw [hstep]
            exact hih.2 (hB hlt)
    · constructor
      · intro hen
        have hz : width - bits_read = 0 := by omega
        refine ⟨⟨input, 0, 0⟩, ?_, ?_, ?_, by simp, hok⟩
        · rw [brReadAux_succ_done f width result bits_read _ hbr, hz]
          simp [Nat.mod_one]
        · rw [hz]
          simp [brContent]
        · rw [hz]
          simp [brBitLen]
      · intro hlt
        omega

/-- Reading `width` bits returns the low `width` bits of the remaining
content and keeps the rest; with fewer than `width` bits left it fails
with `UnexpectedEof`. -/
theorem brReadBits_spec (st : BitReaderState) (width : Nat) (hw1 : 1 ≤ width)
    (hw64 : width ≤ 64) (hinv : st.bits < 2 ^ st.bit_count) (hok : byteOK st.input) :
    (width ≤ brBitLen st →
      ∃ st1 : BitReaderState,
        brReadBits st width = .ok (brContent st % 2 ^ width, st1) ∧
        brContent st1 = brContent st / 2 ^ width ∧
        brBitLen st1 = brBitLen st - width ∧
        st1.bits < 2 ^ st1.bit_count ∧ byteOK st1.input) ∧
    (brBitLen st < width → brReadBits st width = .error .unexpectedEof) := by
  have h0 : ¬ width = 0 := by omega
  have h64 : ¬ 64 < width := by omega
  by_cases hfast : width ≤ st.bit_count
  · have hmask : (if width = 64 then 2 ^ 64 - 1 else 2 ^ width - 1) = 2 ^ width - 1 := by
      split
      · rename_i h
        rw [h]
      · rfl
    have hunfold : brReadBits st width =
        .ok (st.bits &&& (2 ^ width - 1),
          { st with bits := st.bits >>> width, bit_count := st.bit_count - width }) := by
      unfold brReadBits
      rw [if_neg h0, if_neg h64, if_pos hfast, hmask]
    have hsplitbc : (2 : Nat) ^ st.bit_count = 2 ^ width * 2 ^ (st.bit_count - width) := by
      rw [← pow_add]
      congr 1
      omega
    constructor
    · intro _
      refine ⟨{ st with bits := st.bits >>> width, bit_count := st.bit_count - width },
        ?_, ?_, ?_, ?_, hok⟩
      · rw [hunfold]
        have hval : st.bits &&& (2 ^ width - 1) = brContent st % 2 ^ width := by
          rw [and_two_pow_sub_one]
          unfold brContent
          rw [hsplitbc]
          have hassoc : st.bits + bytesVal st.input * (2 ^ width * 2 ^ (st.bit_count - width)) =
              st.bits + 2 ^ width * (bytesVal st.input * 2 ^ (st.bit_count - width)) := by ring
          rw [hassoc, Nat.add_mul_mod_self_left]
        rw [hval]
      · unfold brContent
        show st.bits >>> width + bytesVal st.input * 2 ^ (st.bit_count - width) =
          (st.bits + bytesVal st.input * 2 ^ st.bit_count) / 2 ^ width
        rw [Nat.shiftRight_eq_div_pow, hsplitbc]
        have hassoc : st.bits + bytesVal st.input * (2 ^ width * 2 ^ (st.bit_count - width)) =
            st.bits + 2 ^ width * (bytesVal st.input * 2 ^ (st.bit_count - width)) := by ring
        rw [hassoc, Nat.add_mul_div_left _ _ (Nat.two_pow_pos width)]
      · unfold brBitLen
        show st.bit_count - width + 8 * st.input.length =
          st.bit_count + 8 * st.input.length - width
        omega
      · show st.bits >>> width < 2 ^ (st.bit_count - width)
        rw [Nat.shiftRight_eq_div_pow, Nat.div_lt_iff_lt_mul (Nat.two_pow_pos width)]
        calc st.bits < 2 ^ st.bit_count := hinv
          _ = 2 ^ (st.bit_count - width) * 2 ^ width := by rw [← pow_add]; congr 1; omega
    · intro hlt
      unfold brBitLen at hlt
      omega
  · have hunfold : brReadBits st width =
        brReadAux width width st.bits st.bit_count { st with bits := 0, bit_count := 0 } := by
      unfold brReadBits
      rw [if_neg h0, if_neg h64, if_neg hfast]
    have hbase := brReadAux_spec width width st.bits st.bit_count st.input hok hinv hw64
      (by omega)
    have hwsplit : st.bit_count + (width - st.bit_count) = width := by omega
    have hflip : brContent st = st.bits + 2 ^ st.bit_count * bytesVal st.input := by
      unfold brContent
      ring
    constructor
    · intro hen
      unfold brBitLen at hen
      obtain ⟨st1, heq, hcon, hlen, hinv1, hok1⟩ := hbase.1 (by omega)
      refine ⟨st1, ?_, ?_, ?_, hinv1, hok1⟩
      · rw [hunfold]
        have hst : ({ st with bits := 0, bit_count := 0 } : BitReaderState) =
            ⟨st.input, 0, 0⟩ := rfl
        rw [hst, heq]
        have hval : st.bits + bytesVal st.input % 2 ^ (width - st.bit_count) *
            2 ^ st.bit_count = brContent st % 2 ^ width := by
          rw [hflip]
          conv_rhs => rw [← hwsplit]
          rw [mod_pow_split]
          rw [add_mul_mod_pow st.bits (bytesVal st.input) st.bit_count hinv,
            add_mul_div_pow st.bits (bytesVal st.input) st.bit_count hinv]
          ring
        rw [hval]
      · rw [hcon, hflip]
        conv_rhs => rw [← hwsplit]
        rw [div_pow_split st.bits (bytesVal st.input) st.bit_count (width - st.bit_count) hinv]
      · rw [hlen]
        unfold brBitLen
        omega
    · intro hlt
      unfold brBitLen at hlt
      rw [hunfold]
      have hst : ({ st with bits := 0, bit_count := 0 } : BitReaderState) =
          ⟨st.input, 0, 0⟩ := rfl
      rw [hst]
      exact hbase.2 (by omega)

/-- Decoding `count` values of `width` bits from a reader holding exactly the
packed codes returns the decoded low bits of each code, with no error. -/
theorem bsRun_spec (k : IntKind) (width : Nat) (hw1 : 1 ≤ width) (hw64 : width ≤ 64) :
    ∀ (codes : List Nat) (st : BitReaderState),
    st.bits < 2 ^ st.bit_count → byteOK st.input →
    brContent st = packedNat width codes →
    codes.length * width ≤ brBitLen st →
    bsRun k width codes.length st = (codes.map (fun c => k.decode (c % 2 ^ width)), none) := by
  intro codes
  induction codes with
  | nil =>
    intro st _ _ _ _
    rfl
  | cons c t ih =>
    intro st hinv hok hcon hlen
    have hmul : (t.length + 1) * width = t.length * width + width := by ring
    simp only [List.length_cons] at hlen
    rw [hmul] at hlen
    obtain ⟨st1, heq, hcon1, hlen1, hinv1, hok1⟩ :=
      (brReadBits_spec st width hw1 hw64 hinv hok).1 (by omega)
    have hcmod : c % 2 ^ width < 2 ^ width := Nat.mod_lt c (Nat.two_pow_pos width)
    have hraw : brContent st % 2 ^ width = c % 2 ^ width := by
      rw [hcon]
      show (c % 2 ^ width + 2 ^ width * packedNat width t) % 2 ^ width = c % 2 ^ width
      rw [add_mul_mod_pow _ _ _ hcmod]
    have htail : brContent st1 = packedNat width t := by
      rw [hcon1, hcon]
      show (c % 2 ^ width + 2 ^ width * packedNat width t) / 2 ^ width = packedNat width t
      rw [add_mul_div_pow _ _ _ hcmod]
    have hltail : t.length * width ≤ brBitLen st1 := by
      rw [hlen1]
      omega
    have hihres := ih st1 hinv1 hok1 htail hltail
    show bsRun k width (t.length + 1) st = _
    rw [bsRun, heq]
    simp only [hihres, hraw, List.map_cons]

/-! ## Page format (`common.rs` constants, `page_writer.rs`, `page_reader.rs`) -/

def PAGE_MAGIC_BITPACK : List Nat := [66, 73, 84, 80, 75, 49]

def PAGE_VERSION : Nat := 1

def PAGE_DEFAULT_SIZE : Nat := 64 * 1024

def PAGE_HEADER_SIZE : Nat := 64

/-- The parsed fields of `PageHeader`. -/
structure PageHeaderM where
  min : Int
  max : Int
  count : Nat
  bit_width : Nat
  data_bytes : Nat
  deriving DecidableEq, Repr

/-- `PageHeader::read_from`: read and validate the 64-byte header; a short
read surfaces the `read_exact` error `UnexpectedEof`. -/
def pageHeaderReadFrom (k : IntKind) (input : List Nat) :
    Except EKind (PageHeaderM × List Nat) :=
  if input.length < PAGE_HEADER_SIZE then .error .unexpectedEof
  else
    let buf := input.take PAGE_HEADER_SIZE
    let rest := input.drop PAGE_HEADER_SIZE
    if buf.take 6 ≠ PAGE_MAGIC_BITPACK then .error .invalidData
    else if buf.getD 6 0 ≠ PAGE_VERSION then .error .invalidData
    else if buf.getD 7 0 * 8 ≠ k.bits then .error .invalidData
    else
      let bit_width := buf.getD 8 0
      let count := leBytesToNat ((buf.drop 9).take 8)
      let tw := k.bits / 8
      let mn := k.fromLeBytes ((buf.drop 17).take tw)
      let mx := k.fromLeBytes ((buf.drop (17 + tw)).take tw)
      let data_bytes := leBytesToNat ((buf.drop (17 + 2 * tw)).take 8)
      .ok (⟨mn, mx, count, bit_width, data_bytes⟩, rest)

/-- The 64-byte header `PageEncoder::next` assembles in place: magic,
version, element byte width, bit width (a `u8`), count (`u64` LE), min, max
(LE), payload byte length (`u64` LE), zero padding. -/
def headerBytes (k : IntKind) (width count : Nat) (mn mx : Int) (data_bytes : Nat) :
    List Nat :=
  PAGE_MAGIC_BITPACK ++ [PAGE_VERSION, k.bits / 8 % 256, width % 256] ++
    natLeBytes count 8 ++ k.toLeBytes mn ++ k.toLeBytes mx ++ natLeBytes data_bytes 8 ++
    List.replicate (PAGE_HEADER_SIZE - (25 + 2 * (k.bits / 8))) 0

theorem take_append_eq {α : Type} (l1 l2 : List α) (n : Nat) (h : l1.length = n) :
    (l1 ++ l2).take n = l1 := by
  rw [← h]
  exact List.take_left l1 l2

theorem drop_append_eq {α : Type} (l1 l2 : List α) (n : Nat) (h : l1.length = n) :
    (l1 ++ l2).drop n = l2 := by
  rw [← h]
  exact List.drop_left l1 l2

theorem IntKind.toLeBytes_length (k : IntKind) (v : Int) : (k.toLeBytes v).length = k.bytes := by
  unfold IntKind.toLeBytes
  exact natLeBytes_length _ _

theorem IntKind.bytes_div (k : IntKind) : k.bits / 8 = k.bytes := by
  unfold IntKind.bits
  omega

theorem headerBytes_length (k : IntKind) (hs : k.isSupported)
    (width count : Nat) (mn mx : Int) (db : Nat) :
    (headerBytes k width count mn mx db).length = PAGE_HEADER_SIZE := by
  have hb : k.bytes ≤ 8 := by rcases hs with h | h | h | h <;> omega
  unfold headerBytes
  simp only [List.length_append, List.length_cons, List.length_nil, List.length_replicate,
    natLeBytes_length, IntKind.toLeBytes_length, PAGE_MAGIC_BITPACK, PAGE_HEADER_SIZE]
  rw [k.bytes_div]
  omega

/-- Parsing the assembled header recovers its fields and leaves the tail. -/
theorem pageHeaderReadFrom_headerBytes (k : IntKind) (hs : k.isSupported)
    (width count : Nat) (mn mx : Int) (db : Nat) (rest : List Nat)
    (hwidth : width < 256) (hcount : count < 2 ^ 64) (hdb : db < 2 ^ 64)
    (hmn : k.inRange mn) (hmx : k.inRange mx) :
    pageHeaderReadFrom k (headerBytes k width count mn mx db ++ rest) =
      .ok (⟨mn, mx, count, width, db⟩, rest) := by
  have hb : k.bytes ≤ 8 := by rcases hs with h | h | h | h <;> omega
  have hb1 : 1 ≤ k.bytes := by rcases hs with h | h | h | h <;> omega
  have hlen := headerBytes_length k hs width count mn mx db
  have hsplit : headerBytes k width count mn mx db ++ rest =
      headerBytes k width count mn mx db ++ rest := rfl
  have hnlt : ¬ (headerBytes k width count mn mx db ++ rest).length < PAGE_HEADER_SIZE := by
    rw [List.length_append, hlen]
    omega
  have htake : (headerBytes k width count mn mx db ++ rest).take PAGE_HEADER_SIZE =
      headerBytes k width count mn mx db := take_append_eq _ _ _ hlen
  have hdrop : (headerBytes k width count mn mx db ++ rest).drop PAGE_HEADER_SIZE = rest :=
    drop_append_eq _ _ _ hlen
  unfold pageHeaderReadFrom
  rw [if_neg hnlt]
  simp only [htake, hdrop]
  -- slice the header apart
  have hpre : headerBytes k width count mn mx db =
      (PAGE_MAGIC_BITPACK ++ [PAGE_VERSION, k.bits / 8 % 256, width % 256]) ++
      (natLeBytes count 8 ++ (k.toLeBytes mn ++ (k.toLeBytes mx ++
        (natLeBytes db 8 ++ List.replicate (PAGE_HEADER_SIZE - (25 + 2 * (k.bits / 8))) 0)))) := by
    unfold headerBytes
    simp only [List.append_assoc]
  have hmagic : (headerBytes k width count mn mx db).take 6 = PAGE_MAGIC_BITPACK := by
    unfold headerBytes
    rfl
  have hget6 : (headerBytes k width count mn mx db).getD 6 0 = PAGE_VERSION := by
    unfold headerBytes PAGE_MAGIC_BITPACK
    rfl
  have hget7 : (headerBytes k width count mn mx db).getD 7 0 = k.bits / 8 % 256 := by
    unfold headerBytes PAGE_MAGIC_BITPACK
    rfl
  have hget8 : (headerBytes k width count mn mx db).getD 8 0 = width % 256 := by
    unfold headerBytes PAGE_MAGIC_BITPACK
    rfl
  have htw : k.bits / 8 % 256 * 8 = k.bits := by
    rw [k.bytes_div, Nat.mod_eq_of_lt (by omega)]
    unfold IntKind.bits
    ring
  have hdrop9 : (headerBytes k width count mn mx db).drop 9 =
      natLeBytes count 8 ++ (k.toLeBytes mn ++ (k.toLeBytes mx ++
        (natLeBytes db 8 ++ List.replicate (PAGE_HEADER_SIZE - (25 + 2 * (k.bits / 8))) 0))) := by
    rw [hpre]
    exact drop_append_eq _ _ _ (by simp [PAGE_MAGIC_BITPACK])
  have hcountslice : ((headerBytes k width count mn mx db).drop 9).take 8 =
      natLeBytes count 8 := by
    rw [hdrop9]
    exact take_append_eq _ _ _ (natLeBytes_length _ _)
  have hdrop17 : (headerBytes k width count mn mx db).drop 17 =
      k.toLeBytes mn ++ (k.toLeBytes mx ++
        (natLeBytes db 8 ++ List.replicate (PAGE_HEADER_SIZE - (25 + 2 * (k.bits / 8))) 0)) := by
    have h1 : ((headerBytes k width count mn mx db).drop 9).drop 8 =
        (headerBytes k width count mn mx db).drop 17 := by
      rw [List.drop_drop]
    rw [← h1, hdrop9]
    exact drop_append_eq _ _ _ (natLeBytes_length _ _)
  have hmnslice : ((headerBytes k width count mn mx db).drop 17).take (k.bits / 8) =
      k.toLeBytes mn := by
    rw [hdrop17, k.bytes_div]
    exact take_append_eq _ _ _ (k.toLeBytes_length mn)
  have hdrop17s : (headerBytes k width count mn mx db).drop (17 + k.bits / 8) =
      k.toLeBytes mx ++
        (natLeBytes db 8 ++ List.replicate (PAGE_HEADER_SIZE - (25 + 2 * (k.bits / 8))) 0) := by
    have h1 : ((headerBytes k width count mn mx db).drop 17).drop (k.bits / 8) =
        (headerBytes k width count mn mx db).drop (17 + k.bits / 8) := by
      rw [List.drop_drop]
    rw [← h1, hdrop17, k.bytes_div]
    exact drop_append_eq _ _ _ (k.toLeBytes_length mn)
  have hmxslice : ((headerBytes k width count mn mx db).drop (17 + k.bits / 8)).take
      (k.bits / 8) = k.toLeBytes mx := by
    rw [hdrop17s, k.bytes_div]
    exact take_append_eq _ _ _ (k.toLeBytes_length mx)
  have hdrop17ss : (headerBytes k width count mn mx db).drop (17 + 2 * (k.bits / 8)) =
      natLeBytes db 8 ++ List.replicate (PAGE_HEADER_SIZE - (25 + 2 * (k.bits / 8))) 0 := by
    have h1 : ((headerBytes k width count mn mx db).drop (17 + k.bits / 8)).drop (k.bits / 8) =
        (headerBytes k width count mn mx db).drop (17 + 2 * (k.bits / 8)) := by
      rw [List.drop_drop]
      congr 1
      ring
    rw [← h1, hdrop17s, k.bytes_div]
    exact drop_append_eq _ _ _ (k.toLeBytes_length mx)
  have hdbslice : ((headerBytes k width count mn mx db).drop (17 + 2 * (k.bits / 8))).take 8 =
      natLeBytes db 8 := by
    rw [hdrop17ss]
    exact take_append_eq _ _ _ (natLeBytes_length _ _)
  have h2pow : (256 : Nat) ^ 8 = 2 ^ 64 := by norm_num
  rw [hmagic]
  simp only [hget6, hget7, hget8, htw]
  rw [if_neg (by simp [PAGE_VERSION]), if_neg (by simp), if_neg (by simp)]
  simp only [hcountslice, hmnslice, hmxslice, hdbslice]
  rw [leBytesToNat_natLeBytes count 8 (by rw [h2pow]; exact hcount),
    leBytesToNat_natLeBytes db 8 (by rw [h2pow]; exact hdb),
    fromLeBytes_toLeBytes k hs mn hmn, fromLeBytes_toLeBytes k hs mx hmx,
    Nat.mod_eq_of_lt hwidth]

/-! ## Page encoder (`page_writer.rs`) -/

/-- The `values_per_page` computation of `PageEncoder::new`
(`saturating_sub` is `Nat` subtraction). -/
def pe_values_per_page (width page_size : Nat) : Nat :=
  if 0 < width then (page_size - PAGE_HEADER_SIZE) * 8 / width else PAGE_DEFAULT_SIZE

/-- The `while count < values_per_page` loop of `PageEncoder::next`,
consuming values from the input iterator. -/
def peLoop (k : IntKind) : Nat → List Int → BitWriterState → Int → Int → Nat →
    BitWriterState × Int × Int × Nat × List Int
  | 0, input, w, mn, mx, count => (w, mn, mx, count, input)
  | _ + 1, [], w, mn, mx, count => (w, mn, mx, count, [])
  | slots + 1, v :: rest, w, mn, mx, count =>
      peLoop k slots rest (bwWriteValue k w v) (min mn v) (max mx v) (count + 1)

/-- One page built by `PageEncoder::next` from a non-empty input: the header
record, the bit-packed payload the writer leaves after the reserved header
prefix, and the remaining input.  The pooled page buffer starts cleared with
a 64-byte uninitialised prefix that the header overwrites in place, so the
page bytes are the header followed by the writer output. -/
structure PageEncChunk where
  header : PageHeaderM
  payload : List Nat
  rest : List Int

def pageEncoderChunk (k : IntKind) (width page_size : Nat) (input : List Int) :
    PageEncChunk :=
  match peLoop k (pe_values_per_page width page_size) input (bwNew k width)
      k.maxVal k.minVal 0 with
  | (wst, mn, mx, count, rest) =>
    let fl := bwFlush wst
    { header := ⟨mn, mx, count, width, fl.out.length⟩, payload := fl.out, rest := rest }

/-- The on-disk bytes of one encoded page. -/
def pageBytes (k : IntKind) (h : PageHeaderM) (payload : List Nat) : List Nat :=
  headerBytes k h.bit_width h.count h.min h.max h.data_bytes ++ payload

/-- `PageEncoder::next`: `None` once the peeked input is exhausted. -/
def pageEncoderNext (k : IntKind) (width page_size : Nat) (input : List Int) :
    Option (List Nat × List Int) :=
  match input with
  | [] => none
  | _ :: _ =>
    let c := pageEncoderChunk k width page_size input
    some (pageBytes k c.header c.payload, c.rest)

/-- The iterator pulled to exhaustion.  Each emitted page consumes at least
one input value whenever `values_per_page ≥ 1`, so `input.length` pages
bound the iteration; for `values_per_page = 0` the Rust iterator never
terminates (each `next` emits an empty page without consuming input, see the
claim C10 theorem) and this run is its `input.length`-page prefix. -/
def pageEncoderRunAux (k : IntKind) (width page_size : Nat) :
    Nat → List Int → List (List Nat)
  | 0, _ => []
  | fuel + 1, input =>
    match pageEncoderNext k width page_size input with
    | none => []
    | some (pg, rest) => pg :: pageEncoderRunAux k width page_size fuel rest

def pageEncoderRun (k : IntKind) (width page_size : Nat) (input : List Int) :
    List (List Nat) :=
  pageEncoderRunAux k width page_size input.length input

theorem peLoop_spec (k : IntKind) : ∀ (slots : Nat) (input : List Int)
    (w : BitWriterState) (mn mx : Int) (count : Nat),
    peLoop k slots input w mn mx count =
      (bwWriteValues k w (input.take slots),
       (input.take slots).foldl min mn,
       (input.take slots).foldl max mx,
       count + (input.take slots).length,
       input.drop slots) := by
  intro slots
  induction slots with
  | zero =>
    intro input w mn mx count
    simp [peLoop, bwWriteValues]
  | succ s ih =>
    intro input w mn mx count
    match input with
    | [] => simp [peLoop, bwWriteValues]
    | v :: rest =>
      show peLoop k s rest (bwWriteValue k w v) (min mn v) (max mx v) (count + 1) = _
      rw [ih]
      simp only [List.take_succ_cons, List.drop_succ_cons, List.foldl_cons, List.length_cons,
        bwWriteValues]
      have hc : count + 1 + (rest.take s).length = count + ((rest.take s).length + 1) := by
        omega
      rw [hc]

theorem foldl_min_start (vs : List Int) : ∀ (a : Int), vs.foldl min a ≤ a := by
  induction vs with
  | nil => intro a; simp
  | cons x t ih =>
    intro a
    simp only [List.foldl_cons]
    calc t.foldl min (min a x) ≤ min a x := ih _
      _ ≤ a := min_le_left _ _

theorem foldl_min_le (vs : List Int) : ∀ (a : Int), ∀ v ∈ vs, vs.foldl min a ≤ v := by
  induction vs with
  | nil => intro a v hv; simp at hv
  | cons x t ih =>
    intro a v hv
    simp only [List.mem_cons] at hv
    simp only [List.foldl_cons]
    rcases hv with h | h
    · subst h
      calc t.foldl min (min a v) ≤ min a v := foldl_min_start t _
        _ ≤ v := min_le_right _ _
    · exact ih (min a x) v h

theorem foldl_max_start (vs : List Int) : ∀ (a : Int), a ≤ vs.foldl max a := by
  induction vs with
  | nil => intro a; simp
  | cons x t ih =>
    intro a
    simp only [List.foldl_cons]
    calc a ≤ max a x := le_max_left _ _
      _ ≤ t.foldl max (max a x) := ih _

theorem le_foldl_max (vs : List Int) : ∀ (a : Int), ∀ v ∈ vs, v ≤ vs.foldl max a := by
  induction vs with
  | nil => intro a v hv; simp at hv
  | cons x t ih =>
    intro a v hv
    simp only [List.mem_cons] at hv
    simp only [List.foldl_cons]
    rcases hv with h | h
    · subst h
      calc v ≤ max a v := le_max_right _ _
        _ ≤ t.foldl max (max a v) := foldl_max_start t _
    · exact ih (max a x) v h

theorem foldl_min_mem (vs : List Int) : ∀ (a : Int),
    vs.foldl min a = a ∨ vs.foldl min a ∈ vs := by
  induction vs with
  | nil => intro a; left; rfl
  | cons x t ih =>
    intro a
    simp only [List.foldl_cons]
    rcases ih (min a x) with h | h
    · rcases le_total a x with hax | hax
      · left
        rw [h, min_eq_left hax]
      · right
        simp only [List.mem_cons]
        left
        rw [h, min_eq_right hax]
    · right
      simp only [List.mem_cons]
      right
      exact h

theorem foldl_max_mem (vs : List Int) : ∀ (a : Int),
    vs.foldl max a = a ∨ vs.foldl max a ∈ vs := by
  induction vs with
  | nil => intro a; left; rfl
  | cons x t ih =>
    intro a
    simp only [List.foldl_cons]
    rcases ih (max a x) with h | h
    · rcases le_total a x with hax | hax
      · right
        simp only [List.mem_cons]
        left
        rw [h, max_eq_right hax]
      · left
        rw [h, max_eq_left hax]
    · right
      simp only [List.mem_cons]
      right
      exact h

theorem minVal_inRange (k : IntKind) (hs : k.isSupported) : k.inRange k.minVal := by
  have hpos := k.bits_pos hs
  unfold IntKind.inRange IntKind.minVal
  by_cases hsig : k.signed
  · simp only [hsig, if_true]
    have h : (0 : Int) < 2 ^ (k.bits - 1) := by positivity
    omega
  · simp only [hsig, Bool.false_eq_true, if_false]
    have h : (0 : Int) < 2 ^ k.bits := by positivity
    omega

theorem maxVal_inRange (k : IntKind) (hs : k.isSupported) : k.inRange k.maxVal := by
  have hpos := k.bits_pos hs
  unfold IntKind.inRange IntKind.maxVal
  by_cases hsig : k.signed
  · simp only [hsig, if_true]
    have h : (0 : Int) < 2 ^ (k.bits - 1) := by positivity
    omega
  · simp only [hsig, Bool.false_eq_true, if_false]
    have h : (0 : Int) < 2 ^ k.bits := by positivity
    omega

theorem foldl_min_inRange (k : IntKind) (hs : k.isSupported) (vs : List Int) (a : Int)
    (ha : k.inRange a) (hvs : ∀ v ∈ vs, k.inRange v) : k.inRange (vs.foldl min a) := by
  rcases foldl_min_mem vs a with h | h
  · rw [h]
    exact ha
  · exact hvs _ h

theorem foldl_max_inRange (k : IntKind) (hs : k.isSupported) (vs : List Int) (a : Int)
    (ha : k.inRange a) (hvs : ∀ v ∈ vs, k.inRange v) : k.inRange (vs.foldl max a) := by
  rcases foldl_max_mem vs a with h | h
  · rw [h]
    exact ha
  · exact hvs _ h

/-! ## Page decoders (`page_reader.rs`, `PageDecoder` and `PooledPageDecoder`)

A decoder run models the iterator collected with
`collect::<io::Result<Vec<_>>>()`: the values yielded before the first
error item, paired with that first error if one occurs. -/

/-- The values `BitStream::with_count(cursor, h.bit_width, h.count)` yields
from a page payload buffer. -/
def pageValues (k : IntKind) (h : PageHeaderM) (payload : List Nat) : List Int :=
  (bsRun k h.bit_width h.count ⟨payload, 0, 0⟩).1

theorem brReadAux_error_eof : ∀ (fuel width result bits_read : Nat) (st : BitReaderState)
    (e : EKind), brReadAux fuel width result bits_read st = .error e → e = .unexpectedEof := by
  intro fuel
  induction fuel with
  | zero =>
    intro width result bits_read st e h
    rw [brReadAux_zero] at h
    by_cases hbr : bits_read < width
    · rw [if_pos hbr] at h
      cases h
      rfl
    · rw [if_neg hbr] at h
      cases h
  | succ f ih =>
    intro width result bits_read st e h
    by_cases hbr : bits_read < width
    · match st with
      | ⟨[], bits, bc⟩ =>
        rw [brReadAux_succ_nil f width result bits_read bits bc hbr] at h
        cases h
        rfl
      | ⟨byte :: rest, bits, bc⟩ =>
        by_cases hpart : min (width - bits_read) 8 < 8
        · rw [brReadAux_succ_part f width result bits_read byte rest bits bc hbr hpart] at h
          exact ih _ _ _ _ _ h
        · rw [brReadAux_succ_full f width result bits_read byte rest bits bc hbr hpart] at h
          exact ih _ _ _ _ _ h
    · rw [brReadAux_succ_done f width result bits_read st hbr] at h
      cases h

/-- With a width of at most 64 bits every `read_bits` failure is an
`UnexpectedEof`, which `BitStream::next` turns into a clean end. -/
theorem brReadBits_error_eof (st : BitReaderState) (width : Nat) (hw : width ≤ 64)
    (e : EKind) (h : brReadBits st width = .error e) : e = .unexpectedEof := by
  unfold brReadBits at h
  by_cases h0 : width = 0
  · rw [if_pos h0] at h
    cases h
  · rw [if_neg h0] at h
    rw [if_neg (by omega)] at h
    by_cases hfast : width ≤ st.bit_count
    · rw [if_pos hfast] at h
      cases h
    · rw [if_neg hfast] at h
      exact brReadAux_error_eof _ _ _ _ _ _ h

/-- A bounded bit stream over a width of at most 64 bits never yields an
error item: it ends cleanly at its count or at end of data. -/
theorem bsRun_no_error (k : IntKind) (width : Nat) (hw : width ≤ 64) :
    ∀ (n : Nat) (st : BitReaderState), (bsRun k width n st).2 = none := by
  intro n
  induction n with
  | zero =>
    intro st
    rfl
  | succ n ih =>
    intro st
    rcases hres : brReadBits st width with e | ⟨raw, st1⟩
    · have he := brReadBits_error_eof st width hw e hres
      subst he
      rw [bsRun, hres]
    · rw [bsRun, hres]
      exact ih st1

/-- `PageDecoder` pulled to exhaustion over a byte source, one iteration
budget unit per page (each page consumes at least the 64 header bytes, so
`src.length + 1` units are always enough).  A header-read `UnexpectedEof`
ends the iteration cleanly; any other header error is the terminal error;
a short `read_exact` of the payload surfaces its `UnexpectedEof`. -/
def pageDecoderGo (k : IntKind) : Nat → List Nat → List Int × Option EKind
  | 0, _ => ([], none)
  | fuel + 1, src =>
    match pageHeaderReadFrom k src with
    | .error .unexpectedEof => ([], none)
    | .error e => ([], some e)
    | .ok (h, rest) =>
      if rest.length < h.data_bytes then ([], some .unexpectedEof)
      else
        let r := bsRun k h.bit_width h.count ⟨rest.take h.data_bytes, 0, 0⟩
        match r.2 with
        | some e => (r.1, some e)
        | none =>
          let r2 := pageDecoderGo k fuel (rest.drop h.data_bytes)
          (r.1 ++ r2.1, r2.2)

def pageDecoderRun (k : IntKind) (src : List Nat) : List Int × Option EKind :=
  pageDecoderGo k (src.length + 1) src

/-- `PooledPageDecoder` pulled to exhaustion.  A page whose header fails the
predicate is skipped: its payload is drained with `io::copy` through a
`take(data_bytes)` adapter, which never errors at end of input, so the
decoder simply continues after at most `data_bytes` consumed bytes. -/
def pooledPageDecoderGo (k : IntKind) (p : PageHeaderM → Bool) :
    Nat → List Nat → List Int × Option EKind
  | 0, _ => ([], none)
  | fuel + 1, src =>
    match pageHeaderReadFrom k src with
    | .error .unexpectedEof => ([], none)
    | .error e => ([], some e)
    | .ok (h, rest) =>
      if p h then
        if rest.length < h.data_bytes then ([], some .unexpectedEof)
        else
          let r := bsRun k h.bit_width h.count ⟨rest.take h.data_bytes, 0, 0⟩
          match r.2 with
          | some e => (r.1, some e)
          | none =>
            let r2 := pooledPageDecoderGo k p fuel (rest.drop h.data_bytes)
            (r.1 ++ r2.1, r2.2)
      else
        pooledPageDecoderGo k p fuel (rest.drop h.data_bytes)

def pooledPageDecoderRun (k : IntKind) (p : PageHeaderM → Bool) (src : List Nat) :
    List Int × Option EKind :=
  pooledPageDecoderGo k p (src.length + 1) src

/-! ### One encoded page, characterised -/

theorem byteOK_nil : byteOK [] := by
  intro b hb
  cases hb

/-- What one `PageEncoder::next` page looks like for a width within the
type: the header records the fold of `min`/`max` over the consumed chunk,
the consumed count, the requested width and the padded payload length; the
payload holds exactly the packed codes; and a bounded bit stream over the
payload returns each consumed value re-decoded from its own encoding. -/
theorem pageEncoderChunk_spec (k : IntKind) (hs : k.isSupported) (w S : Nat)
    (hw1 : 1 ≤ w) (hwb : w ≤ k.bits) (vs : List Int)
    (hfit : ∀ v ∈ vs, k.encode v < 2 ^ w) :
    (pageEncoderChunk k w S vs).header =
      ⟨(vs.take (pe_values_per_page w S)).foldl min k.maxVal,
       (vs.take (pe_values_per_page w S)).foldl max k.minVal,
       (vs.take (pe_values_per_page w S)).length, w,
       ((vs.take (pe_values_per_page w S)).length * w + 7) / 8⟩ ∧
    (pageEncoderChunk k w S vs).payload.length =
      ((vs.take (pe_values_per_page w S)).length * w + 7) / 8 ∧
    byteOK (pageEncoderChunk k w S vs).payload ∧
    (pageEncoderChunk k w S vs).rest = vs.drop (pe_values_per_page w S) ∧
    bsRun k w (vs.take (pe_values_per_page w S)).length
        ⟨(pageEncoderChunk k w S vs).payload, 0, 0⟩ =
      ((vs.take (pe_values_per_page w S)).map (fun v => k.decode (k.encode v)), none) := by
  have hb64 := k.bits_le hs
  have hw64 : w ≤ 64 := by omega
  have hclamp : clamp_width_to_type k w = w := min_eq_left hwb
  have hnew : bwNew k w = ⟨[], 0, 0, w⟩ := by
    unfold bwNew
    rw [hclamp]
  have hloop := peLoop_spec k (pe_values_per_page w S) vs (bwNew k w) k.maxVal k.minVal 0
  have hwv := bwWriteValues_spec k (vs.take (pe_values_per_page w S)) (bwNew k w)
    (by rw [hnew]; exact hw64) (by rw [hnew]; exact Nat.zero_lt_one)
    (by rw [hnew]; show (0 : Nat) < 8; omega)
  have hwidtheq : (bwNew k w).width = w := by rw [hnew]
  have hbl0 : bwBitLen (bwNew k w) = 0 := by rw [hnew]; rfl
  have hc0 : bwContent (bwNew k w) = 0 := by rw [hnew]; rfl
  have hbl : bwBitLen (bwWriteValues k (bwNew k w) (vs.take (pe_values_per_page w S))) =
      (vs.take (pe_values_per_page w S)).length * w := by
    rw [hwv.2.2.1, hbl0, hwidtheq, Nat.zero_add]
  have hcon : bwContent (bwWriteValues k (bwNew k w) (vs.take (pe_values_per_page w S))) =
      packedNat w ((vs.take (pe_values_per_page w S)).map k.encode) := by
    rw [hwv.2.2.2.1, hc0, hwidtheq, hbl0, Nat.zero_add, Nat.pow_zero, Nat.mul_one]
  have hfl := bwFlush_spec (bwWriteValues k (bwNew k w) (vs.take (pe_values_per_page w S)))
    hwv.1 hwv.2.1
  have hflen : (bwFlush (bwWriteValues k (bwNew k w)
      (vs.take (pe_values_per_page w S)))).out.length =
      ((vs.take (pe_values_per_page w S)).length * w + 7) / 8 := by
    rw [hfl.2.1, hbl]
  have hfok : byteOK (bwFlush (bwWriteValues k (bwNew k w)
      (vs.take (pe_values_per_page w S)))).out :=
    hfl.2.2 (hwv.2.2.2.2.2 byteOK_nil)
  have hfval : bytesVal (bwFlush (bwWriteValues k (bwNew k w)
      (vs.take (pe_values_per_page w S)))).out =
      packedNat w ((vs.take (pe_values_per_page w S)).map k.encode) := by
    rw [hfl.1, hcon]
  have hchunk : pageEncoderChunk k w S vs =
      { header := ⟨(vs.take (pe_values_per_page w S)).foldl min k.maxVal,
                   (vs.take (pe_values_per_page w S)).foldl max k.minVal,
                   0 + (vs.take (pe_values_per_page w S)).length, w,
                   (bwFlush (bwWriteValues k (bwNew k w)
                     (vs.take (pe_values_per_page w S)))).out.length⟩,
        payload := (bwFlush (bwWriteValues k (bwNew k w)
                     (vs.take (pe_values_per_page w S)))).out,
        rest := vs.drop (pe_values_per_page w S) } := by
    unfold pageEncoderChunk
    rw [hloop]
  have hrun : bsRun k w (vs.take (pe_values_per_page w S)).length
      ⟨(bwFlush (bwWriteValues k (bwNew k w) (vs.take (pe_values_per_page w S)))).out, 0, 0⟩ =
      ((vs.take (pe_values_per_page w S)).map (fun v => k.decode (k.encode v)), none) := by
    have hlenmap : ((vs.take (pe_values_per_page w S)).map k.encode).length =
        (vs.take (pe_values_per_page w S)).length := List.length_map _ _
    have hspec := bsRun_spec k w hw1 hw64 ((vs.take (pe_values_per_page w S)).map k.encode)
      ⟨(bwFlush (bwWriteValues k (bwNew k w) (vs.take (pe_values_per_page w S)))).out, 0, 0⟩
      (by exact Nat.zero_lt_one) hfok
      (by
        show (0 : Nat) + bytesVal _ * 2 ^ 0 = _
        rw [Nat.pow_zero, Nat.mul_one, Nat.zero_add, hfval])
      (by
        show _ * w ≤ 0 + 8 * _
        rw [hlenmap, Nat.zero_add, hflen]
        omega)
    rw [hlenmap] at hspec
    rw [hspec, List.map_map]
    apply congrArg (fun l => (l, (none : Option EKind)))
    apply List.map_congr_left
    intro v hv
    have hv' : v ∈ vs := List.mem_of_mem_take hv
    show k.decode (k.encode v % 2 ^ w) = k.decode (k.encode v)
    rw [Nat.mod_eq_of_lt (hfit v hv')]
  refine ⟨?_, ?_, ?_, ?_, ?_⟩
  · rw [hchunk]
    show PageHeaderM.mk _ _ (0 + _) _ _ = _
    rw [Nat.zero_add, hflen]
  · rw [hchunk]
    exact hflen
  · rw [hchunk]
    exact hfok
  · rw [hchunk]
  · rw [hchunk]
    exact hrun

/-! ### Decoding a whole encoded column file -/

/-- Concatenation of byte buffers into one contiguous stream. -/
def concatL {α : Type} : List (List α) → List α
  | [] => []
  | l :: t => l ++ concatL t

theorem pageHeaderReadFrom_short (k : IntKind) (src : List Nat)
    (h : src.length < PAGE_HEADER_SIZE) :
    pageHeaderReadFrom k src = .error .unexpectedEof := by
  unfold pageHeaderReadFrom
  rw [if_pos h]

theorem pageDecoderGo_nil (k : IntKind) (f : Nat) : pageDecoderGo k (f + 1) [] = ([], none) := by
  rw [pageDecoderGo, pageHeaderReadFrom_short k []
    (by unfold PAGE_HEADER_SIZE; simp)]

/-- One iteration of `PageDecoder` over a parsable page with a full payload
and an error-free page stream. -/
theorem pageDecoderGo_step (k : IntKind) (f : Nat) (src : List Nat) (h : PageHeaderM)
    (rest : List Nat) (hp : pageHeaderReadFrom k src = .ok (h, rest))
    (hlen : ¬ rest.length < h.data_bytes) (vals : List Int)
    (hrun : bsRun k h.bit_width h.count ⟨rest.take h.data_bytes, 0, 0⟩ = (vals, none)) :
    pageDecoderGo k (f + 1) src =
      (vals ++ (pageDecoderGo k f (rest.drop h.data_bytes)).1,
       (pageDecoderGo k f (rest.drop h.data_bytes)).2) := by
  rw [pageDecoderGo, hp]
  dsimp only
  rw [if_neg hlen, hrun]

/-- Decoding the concatenated pages the encoder emits at a type-compatible
width recovers the input, with no error, for any sufficient budgets. -/
theorem pageDecoderGo_encoderRun (k : IntKind) (hs : k.isSupported) (w S : Nat)
    (hw1 : 1 ≤ w) (hwb : w ≤ k.bits) (hvpp1 : 1 ≤ pe_values_per_page w S)
    (hvpp64 : pe_values_per_page w S < 2 ^ 64)
    (hdb64 : (pe_values_per_page w S * w + 7) / 8 < 2 ^ 64) :
    ∀ (fe : Nat) (vs : List Int), vs.length ≤ fe →
    (∀ v ∈ vs, k.inRange v) → (∀ v ∈ vs, k.encode v < 2 ^ w) →
    (∀ v ∈ vs, k.decode (k.encode v) = v) →
    ∀ fd : Nat, (concatL (pageEncoderRunAux k w S fe vs)).length < fd →
    pageDecoderGo k fd (concatL (pageEncoderRunAux k w S fe vs)) = (vs, none) := by
  have hb64 := k.bits_le hs
  have hw64 : w ≤ 64 := by omega
  intro fe
  induction fe with
  | zero =>
    intro vs hlen _ _ _ fd hfd
    have hnil : vs = [] := List.eq_nil_of_length_eq_zero (by omega)
    subst hnil
    match fd with
    | f + 1 => exact pageDecoderGo_nil k f
  | succ fe ih =>
    intro vs hlen hrange hfit hdec fd hfd
    match vs with
    | [] =>
      match fd with
      | f + 1 => exact pageDecoderGo_nil k f
    | v :: rest =>
      obtain ⟨hhead, hpayl, hpayok, hrest, hbsr⟩ :=
        pageEncoderChunk_spec k hs w S hw1 hwb (v :: rest) hfit
      have hrunaux : pageEncoderRunAux k w S (fe + 1) (v :: rest) =
          pageBytes k (pageEncoderChunk k w S (v :: rest)).header
            (pageEncoderChunk k w S (v :: rest)).payload ::
          pageEncoderRunAux k w S fe (pageEncoderChunk k w S (v :: rest)).rest := rfl
      have hcnt64 : ((v :: rest).take (pe_values_per_page w S)).length < 2 ^ 64 := by
        have := List.length_take_le (pe_values_per_page w S) (v :: rest)
        omega
      have hdbval : (((v :: rest).take (pe_values_per_page w S)).length * w + 7) / 8 <
          2 ^ 64 := by
        have h1 := List.length_take_le (pe_values_per_page w S) (v :: rest)
        have h2 : ((v :: rest).take (pe_values_per_page w S)).length * w + 7 ≤
            pe_values_per_page w S * w + 7 :=
          Nat.add_le_add_right (Nat.mul_le_mul_right w h1) 7
        exact Nat.lt_of_le_of_lt (Nat.div_le_div_right h2) hdb64
      have hmn : k.inRange (((v :: rest).take (pe_values_per_page w S)).foldl min k.maxVal) :=
        foldl_min_inRange k hs _ _ (maxVal_inRange k hs)
          (fun x hx => hrange x (List.mem_of_mem_take hx))
      have hmx : k.inRange (((v :: rest).take (pe_values_per_page w S)).foldl max k.minVal) :=
        foldl_max_inRange k hs _ _ (minVal_inRange k hs)
          (fun x hx => hrange x (List.mem_of_mem_take hx))
      have hsrc : concatL (pageEncoderRunAux k w S (fe + 1) (v :: rest)) =
          headerBytes k w (((v :: rest).take (pe_values_per_page w S)).length)
            (((v :: rest).take (pe_values_per_page w S)).foldl min k.maxVal)
            (((v :: rest).take (pe_values_per_page w S)).foldl max k.minVal)
            ((((v :: rest).take (pe_values_per_page w S)).length * w + 7) / 8) ++
          ((pageEncoderChunk k w S (v :: rest)).payload ++
            concatL (pageEncoderRunAux k w S fe ((v :: rest).drop (pe_values_per_page w S)))) := by
        rw [hrunaux]
        show pageBytes k (pageEncoderChunk k w S (v :: rest)).header
            (pageEncoderChunk k w S (v :: rest)).payload ++ _ = _
        rw [hrest, pageBytes, hhead, List.append_assoc]
      have hparse : pageHeaderReadFrom k
          (concatL (pageEncoderRunAux k w S (fe + 1) (v :: rest))) =
          .ok (⟨((v :: rest).take (pe_values_per_page w S)).foldl min k.maxVal,
                ((v :: rest).take (pe_values_per_page w S)).foldl max k.minVal,
                ((v :: rest).take (pe_values_per_page w S)).length, w,
                (((v :: rest).take (pe_values_per_page w S)).length * w + 7) / 8⟩,
             (pageEncoderChunk k w S (v :: rest)).payload ++
               concatL (pageEncoderRunAux k w S fe
                 ((v :: rest).drop (pe_values_per_page w S)))) := by
        rw [hsrc]
        exact pageHeaderReadFrom_headerBytes k hs w _ _ _ _ _ (by omega) hcnt64 hdbval hmn hmx
      match fd, hfd with
      | f + 1, hfd =>
        have hpaylen : (pageEncoderChunk k w S (v :: rest)).payload.length =
            (((v :: rest).take (pe_values_per_page w S)).length * w + 7) / 8 := hpayl
        have hshort : ¬ ((pageEncoderChunk k w S (v :: rest)).payload ++
            concatL (pageEncoderRunAux k w S fe
              ((v :: rest).drop (pe_values_per_page w S)))).length <
            (((v :: rest).take (pe_values_per_page w S)).length * w + 7) / 8 := by
          rw [List.length_append, hpaylen]
          omega
        have hrunpg : bsRun k w (((v :: rest).take (pe_values_per_page w S)).length)
            ⟨((pageEncoderChunk k w S (v :: rest)).payload ++
              concatL (pageEncoderRunAux k w S fe
                ((v :: rest).drop (pe_values_per_page w S)))).take
              ((((v :: rest).take (pe_values_per_page w S)).length * w + 7) / 8), 0, 0⟩ =
            (((v :: rest).take (pe_values_per_page w S)).map
              (fun x => k.decode (k.encode x)), none) := by
          rw [take_append_eq _ _ _ hpaylen]
          exact hbsr
        rw [pageDecoderGo_step k f _ _ _ hparse hshort _ hrunpg]
        rw [drop_append_eq _ _ _ hpaylen]
        have hihlen : ((v :: rest).drop (pe_values_per_page w S)).length ≤ fe := by
          rw [List.length_drop]
          simp only [List.length_cons] at hlen ⊢
          omega
        have hfd2 : (concatL (pageEncoderRunAux k w S fe
            ((v :: rest).drop (pe_values_per_page w S)))).length < f := by
          rw [hsrc, List.length_append, List.length_append,
            headerBytes_length k hs] at hfd
          unfold PAGE_HEADER_SIZE at hfd
          omega
        rw [ih ((v :: rest).drop (pe_values_per_page w S)) hihlen
          (fun x hx => hrange x (List.mem_of_mem_drop hx))
          (fun x hx => hfit x (List.mem_of_mem_drop hx))
          (fun x hx => hdec x (List.mem_of_mem_drop hx)) f hfd2]
        show (((v :: rest).take (pe_values_per_page w S)).map (fun x => k.decode (k.encode x)) ++
          (v :: rest).drop (pe_values_per_page w S), none) = (v :: rest, none)
        rw [(List.map_congr_left
          (fun x hx => hdec x (List.mem_of_mem_take hx))).trans (List.map_id _),
          List.take_append_drop]

/-! ### The pooled decoder over a well-formed page file -/

/-- A well-formed encoded page: the payload is exactly as long as the header
announces, its bytes are bytes, the bit width fits the reader, and the
header fields fit their on-disk integer widths. -/
def pageWF (k : IntKind) (pg : PageHeaderM × List Nat) : Prop :=
  pg.2.length = pg.1.data_bytes ∧ byteOK pg.2 ∧ pg.1.bit_width ≤ 64 ∧
  pg.1.count < 2 ^ 64 ∧ pg.1.data_bytes < 2 ^ 64 ∧ k.inRange pg.1.min ∧ k.inRange pg.1.max

instance (k : IntKind) (pg : PageHeaderM × List Nat) : Decidable (pageWF k pg) := by
  unfold pageWF byteOK
  exact inferInstance

theorem pooledPageDecoderGo_nil (k : IntKind) (p : PageHeaderM → Bool) (f : Nat) :
    pooledPageDecoderGo k p (f + 1) [] = ([], none) := by
  rw [pooledPageDecoderGo, pageHeaderReadFrom_short k []
    (by unfold PAGE_HEADER_SIZE; simp)]

/-- One iteration of `PooledPageDecoder` over a kept page. -/
theorem pooledPageDecoderGo_step_keep (k : IntKind) (p : PageHeaderM → Bool) (f : Nat)
    (src : List Nat) (h : PageHeaderM) (rest : List Nat)
    (hp : pageHeaderReadFrom k src = .ok (h, rest)) (hpred : p h = true)
    (hlen : ¬ rest.length < h.data_bytes) (vals : List Int)
    (hrun : bsRun k h.bit_width h.count ⟨rest.take h.data_bytes, 0, 0⟩ = (vals, none)) :
    pooledPageDecoderGo k p (f + 1) src =
      (vals ++ (pooledPageDecoderGo k p f (rest.drop h.data_bytes)).1,
       (pooledPageDecoderGo k p f (rest.drop h.data_bytes)).2) := by
  rw [pooledPageDecoderGo, hp]
  dsimp only
  rw [if_pos hpred, if_neg hlen, hrun]

/-- One iteration of `PooledPageDecoder` over a skipped page: the payload is
drained and iteration continues behind it. -/
theorem pooledPageDecoderGo_step_skip (k : IntKind) (p : PageHeaderM → Bool) (f : Nat)
    (src : List Nat) (h : PageHeaderM) (rest : List Nat)
    (hp : pageHeaderReadFrom k src = .ok (h, rest)) (hpred : p h = false) :
    pooledPageDecoderGo k p (f + 1) src =
      pooledPageDecoderGo k p f (rest.drop h.data_bytes) := by
  rw [pooledPageDecoderGo, hp]
  dsimp only
  rw [if_neg (by simp [hpred])]

/-- The pooled decoder over a concatenation of well-formed pages: exactly
the kept pages' decoded values, in file order, with no error. -/
theorem pooledPageDecoderGo_pages (k : IntKind) (hs : k.isSupported)
    (p : PageHeaderM → Bool) :
    ∀ (pages : List (PageHeaderM × List Nat)), (∀ pg ∈ pages, pageWF k pg) →
    ∀ fd : Nat, (concatL (pages.map (fun pg => pageBytes k pg.1 pg.2))).length < fd →
    pooledPageDecoderGo k p fd (concatL (pages.map (fun pg => pageBytes k pg.1 pg.2))) =
      (concatL ((pages.filter (fun pg => p pg.1)).map
        (fun pg => pageValues k pg.1 pg.2)), none) := by
  intro pages
  induction pages with
  | nil =>
    intro _ fd hfd
    match fd with
    | f + 1 => exact pooledPageDecoderGo_nil k p f
  | cons pg t ih =>
    intro hwf fd hfd
    obtain ⟨⟨mn, mx, cnt, bw, db⟩, pl⟩ := pg
    obtain ⟨hplen, hpok, hw64, hc64, hd64, hmn, hmx⟩ := hwf _ (List.mem_cons_self _ t)
    have hplen' : pl.length = db := hplen
    have hw64' : bw ≤ 64 := hw64
    have hc64' : cnt < 2 ^ 64 := hc64
    have hd64' : db < 2 ^ 64 := hd64
    have hmn' : k.inRange mn := hmn
    have hmx' : k.inRange mx := hmx
    have hwft : ∀ q ∈ t, pageWF k q := fun q hq => hwf q (List.mem_cons_of_mem _ hq)
    have hsrc : concatL (((⟨⟨mn, mx, cnt, bw, db⟩, pl⟩ : PageHeaderM × List Nat) :: t).map
          (fun q => pageBytes k q.1 q.2)) =
        headerBytes k bw cnt mn mx db ++
        (pl ++ concatL (t.map (fun q => pageBytes k q.1 q.2))) := by
      show pageBytes k ⟨mn, mx, cnt, bw, db⟩ pl ++
        concatL (t.map (fun q => pageBytes k q.1 q.2)) = _
      rw [pageBytes]
      dsimp only
      rw [List.append_assoc]
    have hparse : pageHeaderReadFrom k
        (concatL (((⟨⟨mn, mx, cnt, bw, db⟩, pl⟩ : PageHeaderM × List Nat) :: t).map
          (fun q => pageBytes k q.1 q.2))) =
        .ok (⟨mn, mx, cnt, bw, db⟩,
          pl ++ concatL (t.map (fun q => pageBytes k q.1 q.2))) := by
      rw [hsrc]
      exact pageHeaderReadFrom_headerBytes k hs bw cnt mn mx db _ (by omega) hc64' hd64'
        hmn' hmx'
    have hshort : ¬ (pl ++ concatL (t.map (fun q => pageBytes k q.1 q.2))).length < db := by
      rw [List.length_append, hplen']
      omega
    match fd, hfd with
    | f + 1, hfd =>
      have hfd2 : (concatL (t.map (fun q => pageBytes k q.1 q.2))).length < f := by
        rw [hsrc, List.length_append, List.length_append, headerBytes_length k hs] at hfd
        unfold PAGE_HEADER_SIZE at hfd
        omega
      have hdr : (pl ++ concatL (t.map (fun q => pageBytes k q.1 q.2))).drop db =
          concatL (t.map (fun q => pageBytes k q.1 q.2)) :=
        drop_append_eq _ _ _ hplen'
      rcases Bool.eq_false_or_eq_true (p ⟨mn, mx, cnt, bw, db⟩) with hpq | hpq
      · have hrun : bsRun k bw cnt
            ⟨(pl ++ concatL (t.map (fun q => pageBytes k q.1 q.2))).take db, 0, 0⟩ =
            (pageValues k ⟨mn, mx, cnt, bw, db⟩ pl, none) := by
          rw [take_append_eq _ _ _ hplen', pageValues]
          have hr2 := bsRun_no_error k bw hw64' cnt ⟨pl, 0, 0⟩
          show bsRun k bw cnt ⟨pl, 0, 0⟩ = ((bsRun k bw cnt ⟨pl, 0, 0⟩).1, none)
          rw [← hr2]
        have hfilt : List.filter (fun q => p q.1)
            ((⟨⟨mn, mx, cnt, bw, db⟩, pl⟩ : PageHeaderM × List Nat) :: t) =
            (⟨⟨mn, mx, cnt, bw, db⟩, pl⟩ : PageHeaderM × List Nat) ::
            List.filter (fun q => p q.1) t := by
          simp [hpq]
        rw [pooledPageDecoderGo_step_keep k p f _ ⟨mn, mx, cnt, bw, db⟩ _ hparse hpq
          hshort _ hrun]
        show (pageValues k ⟨mn, mx, cnt, bw, db⟩ pl ++ (pooledPageDecoderGo k p f
            ((pl ++ concatL (t.map (fun q => pageBytes k q.1 q.2))).drop db)).1,
          (pooledPageDecoderGo k p f
            ((pl ++ concatL (t.map (fun q => pageBytes k q.1 q.2))).drop db)).2) = _
        rw [hdr, ih hwft f hfd2, hfilt]
        rfl
      · have hfilt : List.filter (fun q => p q.1)
            ((⟨⟨mn, mx, cnt, bw, db⟩, pl⟩ : PageHeaderM × List Nat) :: t) =
            List.filter (fun q => p q.1) t := by
          simp [hpq]
        rw [pooledPageDecoderGo_step_skip k p f _ ⟨mn, mx, cnt, bw, db⟩ _ hparse hpq]
        show pooledPageDecoderGo k p f
          ((pl ++ concatL (t.map (fun q => pageBytes k q.1 q.2))).drop db) = _
        rw [hdr, ih hwft f hfd2, hfilt]

/-! ## Streaming writer (`stream_writer.rs`, `iters/num.rs`)

`encode_value` spills each value's little-endian raw bytes to a temp sink;
`end_stream` rewinds, derives the width from the raw maximum, reads the
values back through `NumReadIter` and feeds them to the page encoder. -/

/-- `NumReadIter` pulled to exhaustion: `read_exact` of `size_of::<T>()`
bytes per value, a partial trailing chunk is an `UnexpectedEof` that ends
the iteration (`.flatten()` keeps only the `Ok` values). -/
def numReadIterRun (k : IntKind) : Nat → List Nat → List Int
  | 0, _ => []
  | fuel + 1, bytes =>
    if bytes.length < k.bytes then []
    else k.fromLeBytes (bytes.take k.bytes) :: numReadIterRun k fuel (bytes.drop k.bytes)

/-- The temp-file content after `encode_value` on each element of `vs`: the
concatenated little-endian raw bytes (buffer flushes only move bytes). -/
def swSpill (k : IntKind) (vs : List Int) : List Nat :=
  concatL (vs.map k.toLeBytes)

/-- The bytes `end_stream` hands to the output writer: nothing for an empty
stream; otherwise the concatenated pages of the page encoder at width
`bit_width_from_value(max)` over the values read back from the spill. -/
def swEndStreamBytes (k : IntKind) (vs : List Int) : List Nat :=
  if vs.length = 0 then []
  else
    concatL (pageEncoderRun k (bit_width_from_value k (vs.foldl max k.minVal))
      PAGE_DEFAULT_SIZE
      (numReadIterRun k (swSpill k vs).length (swSpill k vs)))

instance (k : IntKind) : Decidable k.isSupported := by
  unfold IntKind.isSupported
  infer_instance

theorem bytes_pos (k : IntKind) (hs : k.isSupported) : 1 ≤ k.bytes := by
  rcases hs with h | h | h | h <;> omega

theorem numReadIterRun_spill (k : IntKind) (hs : k.isSupported) :
    ∀ (vs : List Int), (∀ v ∈ vs, k.inRange v) →
    ∀ fuel : Nat, (swSpill k vs).length ≤ fuel →
    numReadIterRun k fuel (swSpill k vs) = vs := by
  have hb1 := bytes_pos k hs
  intro vs
  induction vs with
  | nil =>
    intro _ fuel _
    cases fuel with
    | zero => rfl
    | succ f =>
      show numReadIterRun k (f + 1) [] = []
      rw [numReadIterRun, if_pos (by simpa using hb1)]
  | cons v t ih =>
    intro hvs fuel hfuel
    have hsp : swSpill k (v :: t) = k.toLeBytes v ++ swSpill k t := rfl
    have hlenv : (k.toLeBytes v).length = k.bytes := k.toLeBytes_length v
    have hlen : (swSpill k (v :: t)).length = k.bytes + (swSpill k t).length := by
      rw [hsp, List.length_append, hlenv]
    cases fuel with
    | zero =>
      exfalso
      rw [hlen] at hfuel
      omega
    | succ f =>
      rw [numReadIterRun, hsp,
        if_neg (by rw [List.length_append, hlenv]; omega),
        take_append_eq _ _ _ hlenv, drop_append_eq _ _ _ hlenv,
        fromLeBytes_toLeBytes k hs v (hvs v (List.mem_cons_self v t)),
        ih (fun x hx => hvs x (List.mem_cons_of_mem v hx)) f (by
          rw [hlen] at hfuel
          omega)]

/-! ### Width facts -/

theorem bit_width_pos (k : IntKind) (v : Int) : 1 ≤ bit_width_from_value k v := by
  unfold bit_width_from_value
  split
  · omega
  · rename_i h
    have h1 : bitLen 1 ≤ bitLen (k.encode v) := bitLen_mono (by omega)
    have h2 : bitLen 1 = 1 := by decide
    omega

theorem bit_width_le_bits (k : IntKind) (hs : k.isSupported) (v : Int)
    (hv : k.inRange v) : bit_width_from_value k v ≤ k.bits := by
  have hpos := k.bits_pos hs
  unfold bit_width_from_value
  split
  · omega
  · exact bitLen_le _ _ (encode_lt_two_pow_64 k hs v hv) (encode_lt_two_pow_bits k hs v hv)

theorem encode_le_unsigned (k : IntKind) (hu : k.signed = false) {u v : Int}
    (hu0 : 0 ≤ u) (huv : u ≤ v) (hv64 : v < (2 : Int) ^ 64) :
    k.encode u ≤ k.encode v := by
  unfold IntKind.encode
  simp only [hu, Bool.false_eq_true, if_false]
  rw [toU64_of_nonneg hu0 (by omega), toU64_of_nonneg (le_trans hu0 huv) hv64]
  exact Int.toNat_le_toNat huv

theorem inRange_lt_two_pow_64 (k : IntKind) (hs : k.isSupported) (hu : k.signed = false)
    {v : Int} (hv : k.inRange v) : v < (2 : Int) ^ 64 := by
  have hb := k.bits_le hs
  have hple : (2 : Int) ^ k.bits ≤ 2 ^ 64 := pow_le_pow_right₀ (by norm_num) hb
  unfold IntKind.inRange at hv
  rw [hu] at hv
  simp only [Bool.false_eq_true, if_false] at hv
  omega

/-- Every encoded element fits the width the unsigned stream writer derives
from the maximum. -/
theorem encode_fit_unsigned (k : IntKind) (hs : k.isSupported) (hu : k.signed = false)
    (vs : List Int) (hvs : ∀ v ∈ vs, k.inRange v) :
    ∀ v ∈ vs, k.encode v < 2 ^ bit_width_from_value k (vs.foldl max k.minVal) := by
  intro v hv
  have hmxR : k.inRange (vs.foldl max k.minVal) :=
    foldl_max_inRange k hs vs _ (minVal_inRange k hs) hvs
  have hvR := hvs v hv
  have hv0 : 0 ≤ v := by
    unfold IntKind.inRange at hvR
    rw [hu] at hvR
    simp only [Bool.false_eq_true, if_false] at hvR
    exact hvR.1
  have hle : v ≤ vs.foldl max k.minVal := le_foldl_max vs _ v hv
  have hee : k.encode v ≤ k.encode (vs.foldl max k.minVal) :=
    encode_le_unsigned k hu hv0 hle (inRange_lt_two_pow_64 k hs hu hmxR)
  have hmxlt : k.encode (vs.foldl max k.minVal) <
      2 ^ bit_width_from_value k (vs.foldl max k.minVal) := by
    unfold bit_width_from_value
    split
    · rename_i h
      rw [h]
      exact Nat.two_pow_pos 1
    · exact bitLen_lt _ (encode_lt_two_pow_64 k hs _ hmxR)
  omega

theorem vpp_default_eq (w : Nat) (hw : 0 < w) :
    pe_values_per_page w PAGE_DEFAULT_SIZE = 523776 / w := by
  unfold pe_values_per_page PAGE_DEFAULT_SIZE PAGE_HEADER_SIZE
  rw [if_pos hw]

theorem vpp_default_pos (w : Nat) (hw1 : 1 ≤ w) (hw64 : w ≤ 64) :
    1 ≤ pe_values_per_page w PAGE_DEFAULT_SIZE := by
  rw [vpp_default_eq w (by omega)]
  rw [Nat.one_le_div_iff (by omega)]
  omega

theorem vpp_default_lt (w : Nat) (hw1 : 1 ≤ w) :
    pe_values_per_page w PAGE_DEFAULT_SIZE < 2 ^ 64 := by
  rw [vpp_default_eq w (by omega)]
  have h := Nat.div_le_self 523776 w
  have : (523776 : Nat) < 2 ^ 64 := by norm_num
  omega

theorem vpp_default_db_lt (w : Nat) (hw1 : 1 ≤ w) :
    (pe_values_per_page w PAGE_DEFAULT_SIZE * w + 7) / 8 < 2 ^ 64 := by
  rw [vpp_default_eq w (by omega)]
  have h1 : 523776 / w * w ≤ 523776 := Nat.div_mul_le_self 523776 w
  have h2 : (523776 / w * w + 7) / 8 ≤ 523776 + 7 := by
    have := Nat.div_le_self (523776 / w * w + 7) 8
    omega
  have : (523776 + 7 : Nat) < 2 ^ 64 := by norm_num
  omega

/-- Claim C1: for every supported `T` and every finite `vs`, streaming
`begin_stream`/`encode_value*`/`end_stream` and then iterating `PageDecoder`
over the produced bytes yields `vs` in order.  As stated over every
supported type the claim is false (see the counterexample for `i8`): the
width is derived from the raw maximum, so for signed types a negative value
whose ZigZag encoding needs more bits than `encode(max)` is truncated.  The
amended claim proved here: the roundtrip holds for every unsigned supported
type, for every in-range input of `u64`-countable length. -/
theorem C1_thm (k : IntKind) (hs : k.isSupported) (hu : k.signed = false)
    (vs : List Int) (hvs : ∀ v ∈ vs, k.inRange v) (hlen : vs.length < 2 ^ 64) :
    pageDecoderRun k (swEndStreamBytes k vs) = (vs, none) := by
  match vs, hvs, hlen with
  | [], _, _ =>
    have h1 : swEndStreamBytes k [] = [] := by
      unfold swEndStreamBytes
      rw [if_pos (show ([] : List Int).length = 0 from rfl)]
    rw [h1]
    exact pageDecoderGo_nil k 0
  | v :: t, hvs, hlen =>
    have hw1 : 1 ≤ bit_width_from_value k ((v :: t).foldl max k.minVal) :=
      bit_width_pos k _
    have hmxR : k.inRange ((v :: t).foldl max k.minVal) :=
      foldl_max_inRange k hs _ _ (minVal_inRange k hs) hvs
    have hwb : bit_width_from_value k ((v :: t).foldl max k.minVal) ≤ k.bits :=
      bit_width_le_bits k hs _ hmxR
    have hw64 : bit_width_from_value k ((v :: t).foldl max k.minVal) ≤ 64 := by
      have := k.bits_le hs
      omega
    have hsw : swEndStreamBytes k (v :: t) =
        concatL (pageEncoderRun k (bit_width_from_value k ((v :: t).foldl max k.minVal))
          PAGE_DEFAULT_SIZE (v :: t)) := by
      unfold swEndStreamBytes
      rw [if_neg (by simp), numReadIterRun_spill k hs (v :: t) hvs _ (le_refl _)]
    rw [hsw]
    exact pageDecoderGo_encoderRun k hs _ PAGE_DEFAULT_SIZE hw1 hwb
      (vpp_default_pos _ hw1 hw64) (vpp_default_lt _ hw1) (vpp_default_db_lt _ hw1)
      (v :: t).length (v :: t) (le_refl _) hvs
      (encode_fit_unsigned k hs hu (v :: t) hvs)
      (fun x hx => decode_encode k hs x (hvs x hx))
      _ (Nat.lt_succ_self _)

set_option maxRecDepth 100000 in
/-- Counterexample to C1 as frozen: for `i8` and `vs = [-3, 1]` the stream
writer derives width 2 from `encode(max) = encode(1) = 2`, truncating
`encode(-3) = 5` to 1, which decodes to `-1`: the decoder yields `[-1, 1]`,
not `[-3, 1]`. -/
theorem C1_cex :
    pageDecoderRun kindI8 (swEndStreamBytes kindI8 [-3, 1]) = ([-1, 1], none) ∧
    ¬ ([-1, 1] : List Int) = [-3, 1] := by
  constructor
  · rfl
  · decide

/-- Witness for C1 at `u8`, `vs = [1, 2, 3]`. -/
theorem C1_thm_witness :
    kindU8.isSupported ∧ kindU8.signed = false ∧
    (∀ v ∈ ([1, 2, 3] : List Int), kindU8.inRange v) ∧
    ([1, 2, 3] : List Int).length < 2 ^ 64 ∧
    pageDecoderRun kindU8 (swEndStreamBytes kindU8 [1, 2, 3]) = ([1, 2, 3], none) :=
  ⟨by decide, by decide, by decide, by decide,
    C1_thm kindU8 (by decide) (by decide) [1, 2, 3] (by decide) (by decide)⟩

/-- Claim C4: over a well-formed column file (a concatenation of encoded
pages), the predicate-aware `PooledPageDecoder` yields exactly the decoded
values of the pages the predicate keeps, concatenated in file order, with
each kept page's values in write order; skipped pages contribute nothing
and their payloads are consumed so later headers parse correctly.
Confirmed. -/
theorem C4_thm (k : IntKind) (hs : k.isSupported) (p : PageHeaderM → Bool)
    (pages : List (PageHeaderM × List Nat)) (hwf : ∀ pg ∈ pages, pageWF k pg) :
    pooledPageDecoderRun k p (concatL (pages.map (fun pg => pageBytes k pg.1 pg.2))) =
      (concatL ((pages.filter (fun pg => p pg.1)).map
        (fun pg => pageValues k pg.1 pg.2)), none) :=
  pooledPageDecoderGo_pages k hs p pages hwf _ (Nat.lt_succ_self _)

/-- Witness for C4: two `u8` pages, the predicate keeps only the second. -/
theorem C4_thm_witness :
    (∀ pg ∈ ([(⟨1, 3, 2, 2, 1⟩, [9]), (⟨5, 6, 2, 3, 1⟩, [53])] :
      List (PageHeaderM × List Nat)), pageWF kindU8 pg) ∧
    pooledPageDecoderRun kindU8 (fun h => decide ((5 : Int) ≤ h.min))
        (concatL (([(⟨1, 3, 2, 2, 1⟩, [9]), (⟨5, 6, 2, 3, 1⟩, [53])] :
          List (PageHeaderM × List Nat)).map (fun pg => pageBytes kindU8 pg.1 pg.2))) =
      (concatL ((([(⟨1, 3, 2, 2, 1⟩, [9]), (⟨5, 6, 2, 3, 1⟩, [53])] :
          List (PageHeaderM × List Nat)).filter
          (fun pg => decide ((5 : Int) ≤ pg.1.min))).map
        (fun pg => pageValues kindU8 pg.1 pg.2)), none) :=
  ⟨by decide, C4_thm kindU8 (by decide) (fun h => decide ((5 : Int) ≤ h.min)) _ (by decide)⟩

/-! ### C10: iterator termination and page count -/

theorem pageEncoderChunk_rest (k : IntKind) (w S : Nat) (vs : List Int) :
    (pageEncoderChunk k w S vs).rest = vs.drop (pe_values_per_page w S) ∧
    (pageEncoderChunk k w S vs).header.count = (vs.take (pe_values_per_page w S)).length := by
  unfold pageEncoderChunk
  rw [peLoop_spec]
  exact ⟨rfl, Nat.zero_add _⟩

theorem ceil_div_succ (n vpp : Nat) (h1 : 1 ≤ vpp) (hn : 1 ≤ n) :
    (n + vpp - 1) / vpp = 1 + (n - vpp + vpp - 1) / vpp := by
  have hL : n + vpp - 1 = (n - 1) + vpp := by omega
  rw [hL, Nat.add_div_right _ (by omega)]
  rcases le_or_lt n vpp with hc | hc
  · have h2 : n - vpp = 0 := by omega
    rw [h2]
    have h3 : (0 + vpp - 1) / vpp = 0 := Nat.div_eq_of_lt (by omega)
    have h4 : (n - 1) / vpp = 0 := Nat.div_eq_of_lt (by omega)
    rw [h3, h4]
  · have hR : n - vpp + vpp - 1 = (n - vpp - 1) + vpp := by omega
    rw [hR, Nat.add_div_right _ (by omega)]
    have hL2 : n - 1 = (n - vpp - 1) + vpp := by omega
    rw [hL2, Nat.add_div_right _ (by omega)]
    generalize (n - vpp - 1) / vpp = q
    omega

theorem pageEncoderRunAux_length (k : IntKind) (w S : Nat)
    (h1 : 1 ≤ pe_values_per_page w S) :
    ∀ (fe : Nat) (vs : List Int), vs.length ≤ fe →
    (pageEncoderRunAux k w S fe vs).length =
      (vs.length + pe_values_per_page w S - 1) / pe_values_per_page w S := by
  intro fe
  induction fe with
  | zero =>
    intro vs hlen
    have hnil : vs = [] := List.eq_nil_of_length_eq_zero (by omega)
    subst hnil
    show (0 : Nat) = (0 + pe_values_per_page w S - 1) / pe_values_per_page w S
    rw [Nat.div_eq_of_lt (by omega)]
  | succ fe ih =>
    intro vs hlen
    match vs with
    | [] =>
      show (0 : Nat) = (0 + pe_values_per_page w S - 1) / pe_values_per_page w S
      rw [Nat.div_eq_of_lt (by omega)]
    | v :: t =>
      have hstep : pageEncoderRunAux k w S (fe + 1) (v :: t) =
          pageBytes k (pageEncoderChunk k w S (v :: t)).header
            (pageEncoderChunk k w S (v :: t)).payload ::
          pageEncoderRunAux k w S fe (pageEncoderChunk k w S (v :: t)).rest := rfl
      rw [hstep, (pageEncoderChunk_rest k w S (v :: t)).1, List.length_cons,
        ih ((v :: t).drop (pe_values_per_page w S)) (by
          rw [List.length_drop]
          simp only [List.length_cons] at hlen ⊢
          omega),
        List.length_drop]
      rw [ceil_div_succ (v :: t).length (pe_values_per_page w S) h1 (by simp)]
      omega

/-- Claim C10: with `values_per_page ≥ 1` the page-encoder iterator is
finite, emitting exactly `⌈n / values_per_page⌉` pages and consuming the
whole input; `next` on an exhausted input returns `None`; and with
`values_per_page = 0` each `next` emits a count-0 page without consuming
input, so the Rust iterator never terminates.  Confirmed. -/
theorem C10_thm (k : IntKind) (w S : Nat) (vs : List Int) :
    (1 ≤ pe_values_per_page w S →
      (pageEncoderRun k w S vs).length =
        (vs.length + pe_values_per_page w S - 1) / pe_values_per_page w S) ∧
    pageEncoderNext k w S [] = none ∧
    (pe_values_per_page w S = 0 → ∀ (v : Int) (t : List Int),
      pageEncoderNext k w S (v :: t) =
        some (pageBytes k (pageEncoderChunk k w S (v :: t)).header
          (pageEncoderChunk k w S (v :: t)).payload,
          (pageEncoderChunk k w S (v :: t)).rest) ∧
      (pageEncoderChunk k w S (v :: t)).header.count = 0 ∧
      (pageEncoderChunk k w S (v :: t)).rest = v :: t) := by
  refine ⟨?_, rfl, ?_⟩
  · intro h1
    exact pageEncoderRunAux_length k w S h1 vs.length vs (le_refl _)
  · intro hz v t
    refine ⟨rfl, ?_, ?_⟩
    · rw [(pageEncoderChunk_rest k w S (v :: t)).2, hz]
      rfl
    · rw [(pageEncoderChunk_rest k w S (v :: t)).1, hz]
      rfl

/-- Witness for C10: `u8` at width 8, page size 128 (so 64 values per page)
over three values gives one page; width 1 at page size 64 gives
`values_per_page = 0` and a non-consuming, count-0 `next`. -/
theorem C10_thm_witness :
    1 ≤ pe_values_per_page 8 128 ∧
    (pageEncoderRun kindU8 8 128 [1, 2, 3]).length =
      (([1, 2, 3] : List Int).length + pe_values_per_page 8 128 - 1) /
        pe_values_per_page 8 128 ∧
    pe_values_per_page 1 64 = 0 ∧
    (pageEncoderNext kindU8 1 64 [5] =
        some (pageBytes kindU8 (pageEncoderChunk kindU8 1 64 [5]).header
          (pageEncoderChunk kindU8 1 64 [5]).payload,
          (pageEncoderChunk kindU8 1 64 [5]).rest) ∧
      (pageEncoderChunk kindU8 1 64 [5]).header.count = 0 ∧
      (pageEncoderChunk kindU8 1 64 [5]).rest = [5]) :=
  ⟨by decide, (C10_thm kindU8 8 128 [1, 2, 3]).1 (by decide), by decide,
    (C10_thm kindU8 1 64 [5]).2.2 (by decide) 5 []⟩

/-- Claim C2: if `w = bit_width_from_value(max vs)` (the encoder folds the
raw maximum from `T::MIN`), every `encode(v)` for `v ∈ vs` fits in `w`
bits.  As frozen over every supported type this is false for signed types
(see the counterexample); the amended claim proved here is the unsigned
case. -/
theorem C2_thm (k : IntKind) (hs : k.isSupported) (hu : k.signed = false)
    (vs : List Int) (hvs : ∀ v ∈ vs, k.inRange v) (v : Int) (hv : v ∈ vs) :
    k.encode v < 2 ^ bit_width_from_value k (vs.foldl max k.minVal) :=
  encode_fit_unsigned k hs hu vs hvs v hv

/-- Counterexample to C2 as frozen: for `i8` and `vs = [-3, 1]` the raw
maximum is 1, so `w = bit_width(encode 1) = bit_width(2) = 2`, but
`encode(-3) = 5 ≥ 2^2`. -/
theorem C2_cex :
    bit_width_from_value kindI8 (([-3, 1] : List Int).foldl max kindI8.minVal) = 2 ∧
    kindI8.encode (-3) = 5 ∧
    ¬ kindI8.encode (-3) < 2 ^ 2 := by
  decide

/-- Witness for C2 at `u8`, `vs = [1, 200]`, `v = 200`. -/
theorem C2_thm_witness :
    kindU8.isSupported ∧ kindU8.signed = false ∧
    (∀ v ∈ ([1, 200] : List Int), kindU8.inRange v) ∧ (200 : Int) ∈ [1, 200] ∧
    kindU8.encode 200 <
      2 ^ bit_width_from_value kindU8 (([1, 200] : List Int).foldl max kindU8.minVal) :=
  ⟨by decide, by decide, by decide, by decide,
    C2_thm kindU8 (by decide) (by decide) [1, 200] (by decide) 200 (by decide)⟩

/-- Claim C5: every page the encoder emits has
`data_bytes = ⌈count · w / 8⌉`, and every value decodable from its payload
lies between the header's `min` and `max`.  As frozen (any `w ≥ 1`) this is
false, because the bit writer clamps the width to the type while the header
records the unclamped width (see the counterexample).  Amended claim proved
here: it holds whenever `1 ≤ w ≤ T::BITS` and every value's encoding fits
`w` bits. -/
theorem C5_thm (k : IntKind) (hs : k.isSupported) (w S : Nat) (hw1 : 1 ≤ w)
    (hwb : w ≤ k.bits) (vs : List Int) (hvs : ∀ v ∈ vs, k.inRange v)
    (hfit : ∀ v ∈ vs, k.encode v < 2 ^ w) :
    (pageEncoderChunk k w S vs).header.data_bytes =
      ((pageEncoderChunk k w S vs).header.count * w + 7) / 8 ∧
    ∀ x ∈ pageValues k (pageEncoderChunk k w S vs).header
        (pageEncoderChunk k w S vs).payload,
      (pageEncoderChunk k w S vs).header.min ≤ x ∧
      x ≤ (pageEncoderChunk k w S vs).header.max := by
  obtain ⟨hhead, hpayl, hpok, hrest, hbsr⟩ := pageEncoderChunk_spec k hs w S hw1 hwb vs hfit
  have hvals : pageValues k (pageEncoderChunk k w S vs).header
      (pageEncoderChunk k w S vs).payload = vs.take (pe_values_per_page w S) := by
    unfold pageValues
    rw [hhead]
    show (bsRun k w ((vs.take (pe_values_per_page w S)).length)
      ⟨(pageEncoderChunk k w S vs).payload, 0, 0⟩).1 = _
    rw [hbsr]
    show (vs.take (pe_values_per_page w S)).map (fun v => k.decode (k.encode v)) = _
    exact (List.map_congr_left
      (fun x hx => decode_encode k hs x (hvs x (List.mem_of_mem_take hx)))).trans
      (List.map_id _)
  constructor
  · rw [hhead]
  · intro x hx
    rw [hvals] at hx
    rw [hhead]
    exact ⟨foldl_min_le _ _ x hx, le_foldl_max _ _ x hx⟩

/-- Counterexample to C5 as frozen: (a) `u8` at width 9 — the writer clamps
to 8 bits, so one value yields one payload byte, but
`⌈count · 9 / 8⌉ = 2 ≠ 1`; (b) `u8` at width 1 with values `[2, 2]` — the
encodings are truncated to 0, the page decodes to `[0, 0]`, violating
`min = 2 ≤ v`. -/
theorem C5_cex :
    (pageEncoderChunk kindU8 9 128 [0]).header.bit_width = 9 ∧
    (pageEncoderChunk kindU8 9 128 [0]).header.count = 1 ∧
    (pageEncoderChunk kindU8 9 128 [0]).header.data_bytes = 1 ∧
    ¬ (pageEncoderChunk kindU8 9 128 [0]).header.data_bytes =
      ((pageEncoderChunk kindU8 9 128 [0]).header.count * 9 + 7) / 8 ∧
    (pageEncoderChunk kindU8 1 128 [2, 2]).header.min = 2 ∧
    pageValues kindU8 (pageEncoderChunk kindU8 1 128 [2, 2]).header
      (pageEncoderChunk kindU8 1 128 [2, 2]).payload = [0, 0] ∧
    ¬ ((pageEncoderChunk kindU8 1 128 [2, 2]).header.min ≤ (0 : Int)) := by
  decide

/-- Witness for C5 at `u8`, width 3, page size 128, `vs = [5, 6]`. -/
theorem C5_thm_witness :
    1 ≤ 3 ∧ 3 ≤ kindU8.bits ∧ (∀ v ∈ ([5, 6] : List Int), kindU8.inRange v) ∧
    (∀ v ∈ ([5, 6] : List Int), kindU8.encode v < 2 ^ 3) ∧
    ((pageEncoderChunk kindU8 3 128 [5, 6]).header.data_bytes =
      ((pageEncoderChunk kindU8 3 128 [5, 6]).header.count * 3 + 7) / 8 ∧
    ∀ x ∈ pageValues kindU8 (pageEncoderChunk kindU8 3 128 [5, 6]).header
        (pageEncoderChunk kindU8 3 128 [5, 6]).payload,
      (pageEncoderChunk kindU8 3 128 [5, 6]).header.min ≤ x ∧
      x ≤ (pageEncoderChunk kindU8 3 128 [5, 6]).header.max) :=
  ⟨by decide, by decide, by decide, by decide,
    C5_thm kindU8 (by decide) 3 128 (by decide) (by decide) [5, 6] (by decide) (by decide)⟩

/-! ### Header validation failures (`PageHeader::read_from`) -/

theorem pageHeaderReadFrom_bad_magic (k : IntKind) (src : List Nat)
    (hlen : ¬ src.length < PAGE_HEADER_SIZE)
    (hm : (src.take PAGE_HEADER_SIZE).take 6 ≠ PAGE_MAGIC_BITPACK) :
    pageHeaderReadFrom k src = .error .invalidData := by
  unfold pageHeaderReadFrom
  rw [if_neg hlen]
  dsimp only
  rw [if_pos hm]

theorem pageHeaderReadFrom_bad_version (k : IntKind) (src : List Nat)
    (hlen : ¬ src.length < PAGE_HEADER_SIZE)
    (hm : (src.take PAGE_HEADER_SIZE).take 6 = PAGE_MAGIC_BITPACK)
    (hv : (src.take PAGE_HEADER_SIZE).getD 6 0 ≠ PAGE_VERSION) :
    pageHeaderReadFrom k src = .error .invalidData := by
  unfold pageHeaderReadFrom
  rw [if_neg hlen]
  dsimp only
  rw [if_neg (not_not_intro hm), if_pos hv]

theorem pageHeaderReadFrom_bad_twidth (k : IntKind) (src : List Nat)
    (hlen : ¬ src.length < PAGE_HEADER_SIZE)
    (hm : (src.take PAGE_HEADER_SIZE).take 6 = PAGE_MAGIC_BITPACK)
    (hv : (src.take PAGE_HEADER_SIZE).getD 6 0 = PAGE_VERSION)
    (ht : (src.take PAGE_HEADER_SIZE).getD 7 0 * 8 ≠ k.bits) :
    pageHeaderReadFrom k src = .error .invalidData := by
  unfold pageHeaderReadFrom
  rw [if_neg hlen]
  dsimp only
  rw [if_neg (not_not_intro hm), if_neg (not_not_intro hv), if_pos ht]

/-- A non-EOF header error is the pooled decoder's terminal error item. -/
theorem pooledPageDecoderGo_error (k : IntKind) (p : PageHeaderM → Bool) (f : Nat)
    (src : List Nat) (e : EKind) (he : ¬ e = .unexpectedEof)
    (hp : pageHeaderReadFrom k src = .error e) :
    pooledPageDecoderGo k p (f + 1) src = ([], some e) := by
  rw [pooledPageDecoderGo, hp]
  cases e with
  | invalidData => rfl
  | unexpectedEof => exact absurd rfl he
  | invalidInput => rfl
  | notFound => rfl

/-- A short payload read under a kept header is the pooled decoder's
terminal `UnexpectedEof`. -/
theorem pooledPageDecoderGo_eof (k : IntKind) (p : PageHeaderM → Bool) (f : Nat)
    (src : List Nat) (h : PageHeaderM) (rest : List Nat)
    (hp : pageHeaderReadFrom k src = .ok (h, rest)) (hpred : p h = true)
    (hlen : rest.length < h.data_bytes) :
    pooledPageDecoderGo k p (f + 1) src = ([], some .unexpectedEof) := by
  rw [pooledPageDecoderGo, hp]
  dsimp only
  rw [if_pos hpred, if_pos hlen]

/-- The plain decoder's analogues. -/
theorem pageDecoderGo_error (k : IntKind) (f : Nat) (src : List Nat) (e : EKind)
    (he : ¬ e = .unexpectedEof) (hp : pageHeaderReadFrom k src = .error e) :
    pageDecoderGo k (f + 1) src = ([], some e) := by
  rw [pageDecoderGo, hp]
  cases e with
  | invalidData => rfl
  | unexpectedEof => exact absurd rfl he
  | invalidInput => rfl
  | notFound => rfl

theorem pageDecoderGo_eof (k : IntKind) (f : Nat) (src : List Nat) (h : PageHeaderM)
    (rest : List Nat) (hp : pageHeaderReadFrom k src = .ok (h, rest))
    (hlen : rest.length < h.data_bytes) :
    pageDecoderGo k (f + 1) src = ([], some .unexpectedEof) := by
  rw [pageDecoderGo, hp]
  dsimp only
  rw [if_pos hlen]

theorem pageDecoderGo_header_eof (k : IntKind) (f : Nat) (src : List Nat)
    (hlen : src.length < PAGE_HEADER_SIZE) :
    pageDecoderGo k (f + 1) src = ([], none) := by
  rw [pageDecoderGo, pageHeaderReadFrom_short k src hlen]

/-- Claim C6: a magic, version or element-width mismatch in a page header is
a terminal `InvalidData`; a short read inside a kept page's payload is a
terminal `UnexpectedEof`; a clean EOF at a page boundary ends the iteration
without an error.  As frozen the claim also says a header bit width
exceeding `8·sizeof(T)` is an `InvalidData` — that is false: no such check
exists (see the counterexample, where a `u32` page with bit width 33
decodes without any error).  The amended claim drops that clause. -/
theorem C6_thm (k : IntKind) (p : PageHeaderM → Bool) (src : List Nat) :
    (¬ src.length < PAGE_HEADER_SIZE →
      (src.take PAGE_HEADER_SIZE).take 6 ≠ PAGE_MAGIC_BITPACK →
      pooledPageDecoderRun k p src = ([], some .invalidData)) ∧
    (¬ src.length < PAGE_HEADER_SIZE →
      (src.take PAGE_HEADER_SIZE).take 6 = PAGE_MAGIC_BITPACK →
      (src.take PAGE_HEADER_SIZE).getD 6 0 ≠ PAGE_VERSION →
      pooledPageDecoderRun k p src = ([], some .invalidData)) ∧
    (¬ src.length < PAGE_HEADER_SIZE →
      (src.take PAGE_HEADER_SIZE).take 6 = PAGE_MAGIC_BITPACK →
      (src.take PAGE_HEADER_SIZE).getD 6 0 = PAGE_VERSION →
      (src.take PAGE_HEADER_SIZE).getD 7 0 * 8 ≠ k.bits →
      pooledPageDecoderRun k p src = ([], some .invalidData)) ∧
    (∀ (mn mx : Int) (cnt bw db : Nat) (tail : List Nat), k.isSupported →
      bw < 256 → cnt < 2 ^ 64 → db < 2 ^ 64 → k.inRange mn → k.inRange mx →
      p ⟨mn, mx, cnt, bw, db⟩ = true → tail.length < db →
      pooledPageDecoderRun k p (headerBytes k bw cnt mn mx db ++ tail) =
        ([], some .unexpectedEof)) ∧
    pooledPageDecoderRun k p [] = ([], none) := by
  refine ⟨?_, ?_, ?_, ?_, ?_⟩
  · intro hlen hm
    exact pooledPageDecoderGo_error k p src.length src .invalidData (by decide)
      (pageHeaderReadFrom_bad_magic k src hlen hm)
  · intro hlen hm hv
    exact pooledPageDecoderGo_error k p src.length src .invalidData (by decide)
      (pageHeaderReadFrom_bad_version k src hlen hm hv)
  · intro hlen hm hv ht
    exact pooledPageDecoderGo_error k p src.length src .invalidData (by decide)
      (pageHeaderReadFrom_bad_twidth k src hlen hm hv ht)
  · intro mn mx cnt bw db tail hs hbw hcnt hdb hmn hmx hpred htail
    exact pooledPageDecoderGo_eof k p _ _ ⟨mn, mx, cnt, bw, db⟩ tail
      (pageHeaderReadFrom_headerBytes k hs bw cnt mn mx db tail hbw hcnt hdb hmn hmx)
      hpred htail
  · exact pooledPageDecoderGo_nil k p 0

/-- Counterexample to C6 as frozen: a `u32` page declaring bit width
33 > 32 is accepted and decoded (each 33-bit code is truncated to `u32` by
`decode`), with no `InvalidData` anywhere. -/
theorem C6_cex :
    pooledPageDecoderRun kindU32 (fun _ => true)
      (headerBytes kindU32 33 1 0 1 5 ++ [1, 0, 0, 0, 1]) = ([1], none) ∧
    kindU32.bits < 33 := by
  constructor
  · rfl
  · decide

/-- Witness for C6: a 64-byte zero block (bad magic) and a valid `u8`
header announcing 2 payload bytes over a 1-byte tail. -/
theorem C6_thm_witness :
    pooledPageDecoderRun kindU8 (fun _ => true) (List.replicate 64 0) =
      ([], some .invalidData) ∧
    pooledPageDecoderRun kindU8 (fun _ => true) (headerBytes kindU8 8 1 0 0 2 ++ [7]) =
      ([], some .unexpectedEof) :=
  ⟨(C6_thm kindU8 (fun _ => true) (List.replicate 64 0)).1 (by decide) (by decide),
    (C6_thm kindU8 (fun _ => true) []).2.2.2.1 0 0 1 8 2 [7] (by decide) (by decide)
      (by decide) (by decide) (by decide) (by decide) (by decide) (by decide)⟩

/-- Claim C7: a column file truncated at a non-boundary position makes the
decoder return `InvalidData` at the truncation point.  False: a truncation
inside a page header is an `UnexpectedEof` of the header `read_exact`,
which both decoders treat as a clean end of iteration (no error at all);
and a truncation inside a page payload surfaces as `UnexpectedEof`, not
`InvalidData`.  The amended claim proved here states those two actual
behaviours. -/
theorem C7_thm (k : IntKind) :
    (∀ src : List Nat, src.length < PAGE_HEADER_SIZE →
      pageDecoderRun k src = ([], none)) ∧
    (∀ (mn mx : Int) (cnt bw db : Nat) (tail : List Nat), k.isSupported →
      bw < 256 → cnt < 2 ^ 64 → db < 2 ^ 64 → k.inRange mn → k.inRange mx →
      tail.length < db →
      pageDecoderRun k (headerBytes k bw cnt mn mx db ++ tail) =
        ([], some .unexpectedEof)) := by
  constructor
  · intro src hlen
    exact pageDecoderGo_header_eof k src.length src hlen
  · intro mn mx cnt bw db tail hs hbw hcnt hdb hmn hmx htail
    exact pageDecoderGo_eof k _ _ ⟨mn, mx, cnt, bw, db⟩ tail
      (pageHeaderReadFrom_headerBytes k hs bw cnt mn mx db tail hbw hcnt hdb hmn hmx)
      htail

/-- Counterexample to C7 as frozen: a valid one-page `u8` file (values
`[1, 2, 3]` at width 2) truncated at byte 32 — inside the header — makes
the decoder end silently with no values and no error, not `InvalidData`. -/
theorem C7_cex :
    pageDecoderRun kindU8 ((headerBytes kindU8 2 3 1 3 1 ++ [57]).take 32) = ([], none) ∧
    ¬ (pageDecoderRun kindU8 ((headerBytes kindU8 2 3 1 3 1 ++ [57]).take 32)).2 =
      some .invalidData := by
  constructor
  · rfl
  · decide

/-- Witness for C7: a 10-byte fragment ends silently; a valid `u8` header
announcing 2 payload bytes over a 1-byte tail raises `UnexpectedEof`. -/
theorem C7_thm_witness :
    pageDecoderRun kindU8 (List.replicate 10 0) = ([], none) ∧
    pageDecoderRun kindU8 (headerBytes kindU8 8 1 0 0 2 ++ [7]) =
      ([], some .unexpectedEof) :=
  ⟨(C7_thm kindU8).1 (List.replicate 10 0) (by decide),
    (C7_thm kindU8).2 0 0 1 8 2 [7] (by decide) (by decide) (by decide) (by decide)
      (by decide) (by decide) (by decide)⟩

/-! ## Buffer pools (`buffers/mod.rs`, `smart_pool.rs`, `buffer_pool.rs`)

Counters are `AtomicUsize`, so arithmetic wraps at `2^64`. -/

def usizeAdd (a b : Nat) : Nat := (a + b) % 2 ^ 64

def usizeSub (a b : Nat) : Nat := (a + 2 ^ 64 - b % 2 ^ 64) % 2 ^ 64

def MIN_BUCKET : Nat := 256

def MAX_BUCKET : Nat := 2 ^ 20

/-- One `n |= n >> s` step of `pow2_ceil`. -/
def pow2CeilStep (m s : Nat) : Nat := m ||| m >>> s

/-- `buffers/mod.rs::pow2_ceil`: the or-cascade runs only through `>> 16`
(shifts 1, 2, 4, 8, 16), and the final `n += 1` wraps on `usize`. -/
def pow2_ceil (n : Nat) : Nat :=
  if n ≤ 1 then 1
  else
    (pow2CeilStep (pow2CeilStep (pow2CeilStep (pow2CeilStep
      (pow2CeilStep (n - 1) 1) 2) 4) 8) 16 + 1) % 2 ^ 64

theorem pow2CeilStep_ge (m s : Nat) : m ≤ pow2CeilStep m s := by
  unfold pow2CeilStep
  exact Nat.le_of_testBit (fun i h => by rw [Nat.testBit_or, h, Bool.true_or])

theorem pow2CeilStep_lt {m K : Nat} (s : Nat) (h : m < 2 ^ K) :
    pow2CeilStep m s < 2 ^ K := by
  unfold pow2CeilStep
  refine Nat.or_lt_two_pow h (lt_of_le_of_lt ?_ h)
  rw [Nat.shiftRight_eq_div_pow]
  exact Nat.div_le_self m (2 ^ s)

theorem pow2_ceil_ge (n : Nat) (h : n ≤ 2 ^ 63) : n ≤ pow2_ceil n := by
  unfold pow2_ceil
  by_cases h1 : n ≤ 1
  · rw [if_pos h1]
    omega
  · rw [if_neg h1]
    have hm : n - 1 < 2 ^ 63 := by omega
    have s1g := pow2CeilStep_ge (n - 1) 1
    have s1l := pow2CeilStep_lt 1 hm
    have s2g := pow2CeilStep_ge (pow2CeilStep (n - 1) 1) 2
    have s2l := pow2CeilStep_lt 2 s1l
    have s3g := pow2CeilStep_ge (pow2CeilStep (pow2CeilStep (n - 1) 1) 2) 4
    have s3l := pow2CeilStep_lt 4 s2l
    have s4g := pow2CeilStep_ge (pow2CeilStep (pow2CeilStep (pow2CeilStep (n - 1) 1) 2) 4) 8
    have s4l := pow2CeilStep_lt 8 s3l
    have s5g := pow2CeilStep_ge
      (pow2CeilStep (pow2CeilStep (pow2CeilStep (pow2CeilStep (n - 1) 1) 2) 4) 8) 16
    have s5l := pow2CeilStep_lt 16 s4l
    have hfin : pow2CeilStep (pow2CeilStep (pow2CeilStep (pow2CeilStep
        (pow2CeilStep (n - 1) 1) 2) 4) 8) 16 + 1 < 2 ^ 64 := by
      have hx : (2 : Nat) ^ 63 < 2 ^ 64 := by norm_num
      omega
    rw [Nat.mod_eq_of_lt hfin]
    omega

/-- The `tzAux`-style loop of `usize::trailing_zeros` over the 64 bits. -/
def tzAux : Nat → Nat → Nat
  | 0, _ => 0
  | f + 1, n => if n % 2 = 0 then tzAux f (n / 2) + 1 else 0

def trailing_zeros (n : Nat) : Nat := tzAux 64 (n % 2 ^ 64)

/-- `SmartBufferPool::bucket_index` for a power-of-two capacity:
`min(cap.trailing_zeros().saturating_sub(8), 12)` (MIN is `2^8`, MAX is
`2^20`). -/
def smart_bucket_index (cap : Nat) : Nat := min (trailing_zeros cap - 8) 12

/-- The shared `SmartEntry` state: the per-bucket free lists (each cached
buffer represented by its capacity; `Vec` push/pop is LIFO, modelled at the
list head), the byte counter, the soft ceiling and the hit/miss counters. -/
structure SmartPoolSt where
  buckets : List (List Nat)
  bytes_in_use : Nat
  max_bytes : Nat
  hit_count : Nat
  miss_count : Nat
  deriving DecidableEq, Repr

/-- `SmartBufferPool::new`: 13 buckets for capacities `2^8 .. 2^20`. -/
def smartPoolNew (max_bytes : Nat) : SmartPoolSt :=
  ⟨List.replicate 13 [], 0, max_bytes, 0, 0⟩

structure SmartPageM where
  cap : Nat
  cap_bucket : Nat
  deriving DecidableEq, Repr

/-- `SmartBufferPool::trim`: drain every bucket, subtracting each drained
buffer's capacity from the counter. -/
def smartTrim (st : SmartPoolSt) : SmartPoolSt :=
  { st with buckets := List.replicate st.buckets.length [],
            bytes_in_use :=
              (concatL st.buckets).foldl (fun a c => usizeSub a c) st.bytes_in_use }

/-- `SmartBufferPool::get`. -/
def smartGet (st0 : SmartPoolSt) (c : Nat) : SmartPageM × SmartPoolSt :=
  let st := if st0.max_bytes < st0.bytes_in_use then smartTrim st0 else st0
  let want := max (pow2_ceil c) MIN_BUCKET
  if want ≤ MAX_BUCKET then
    match st.buckets.getD (smart_bucket_index want) [] with
    | cap :: bin =>
      (⟨cap, want⟩,
        { st with buckets := st.buckets.set (smart_bucket_index want) bin,
                  hit_count := usizeAdd st.hit_count 1 })
    | [] =>
      (⟨want, want⟩,
        { st with miss_count := usizeAdd st.miss_count 1,
                  bytes_in_use := usizeAdd st.bytes_in_use want })
  else
    (⟨want, want⟩,
      { st with miss_count := usizeAdd st.miss_count 1,
                bytes_in_use := usizeAdd st.bytes_in_use want })

/-- `impl Drop for SmartPage`. -/
def smartDrop (st : SmartPoolSt) (pg : SmartPageM) : SmartPoolSt :=
  if MAX_BUCKET < pg.cap_bucket then
    { st with bytes_in_use := usizeSub st.bytes_in_use pg.cap }
  else
    { st with buckets := (st.buckets.set (smart_bucket_index pg.cap_bucket)
        (pg.cap :: st.buckets.getD (smart_bucket_index pg.cap_bucket) [])) }

/-- Claim C9: a request above `MAX_BUCKET` yields a page of capacity at
least the request, and dropping that page caches nothing.  As frozen, over
both cited pools, the claim is false: the legacy `BufferPool::get` clamps
the target to `MAX_BUCKET`, returning a smaller page that its `Drop` then
caches (see the counterexample).  The amended claim proved here is the
property for the `SmartBufferPool` the encode/decode paths use: the free
lists are untouched by the drop and the counter gives the capacity back,
for every request up to `2^63` (beyond that `pow2_ceil` wraps, but
`Vec::with_capacity` aborts the process long before, so `get` never
returns such a page). -/
theorem C9_thm (st : SmartPoolSt) (c : Nat) (h1 : MAX_BUCKET < c) (h2 : c ≤ 2 ^ 63) :
    c ≤ (smartGet st c).1.cap ∧
    MAX_BUCKET < (smartGet st c).1.cap_bucket ∧
    ∀ st2 : SmartPoolSt,
      (smartDrop st2 (smartGet st c).1).buckets = st2.buckets ∧
      (smartDrop st2 (smartGet st c).1).bytes_in_use =
        usizeSub st2.bytes_in_use (smartGet st c).1.cap := by
  have hge : c ≤ pow2_ceil c := pow2_ceil_ge c h2
  have hminmax : MIN_BUCKET ≤ MAX_BUCKET := by
    unfold MIN_BUCKET MAX_BUCKET
    norm_num
  have hwant : max (pow2_ceil c) MIN_BUCKET = pow2_ceil c :=
    max_eq_left (by omega)
  have hnot : ¬ max (pow2_ceil c) MIN_BUCKET ≤ MAX_BUCKET := by
    rw [hwant]
    omega
  have hpage : (smartGet st c).1 =
      ⟨max (pow2_ceil c) MIN_BUCKET, max (pow2_ceil c) MIN_BUCKET⟩ := by
    unfold smartGet
    dsimp only
    rw [if_neg hnot]
  have hbig : MAX_BUCKET < (smartGet st c).1.cap_bucket := by
    rw [hpage]
    show MAX_BUCKET < max (pow2_ceil c) MIN_BUCKET
    rw [hwant]
    omega
  refine ⟨?_, hbig, ?_⟩
  · rw [hpage]
    show c ≤ max (pow2_ceil c) MIN_BUCKET
    rw [hwant]
    omega
  · intro st2
    unfold smartDrop
    rw [if_pos hbig]
    exact ⟨rfl, rfl⟩

/-- Witness for C9: a fresh pool and a request of `MAX_BUCKET + 1` bytes. -/
theorem C9_thm_witness :
    MAX_BUCKET < 2 ^ 20 + 1 ∧ 2 ^ 20 + 1 ≤ 2 ^ 63 ∧
    (2 ^ 20 + 1 ≤ (smartGet (smartPoolNew (8 * 2 ^ 20)) (2 ^ 20 + 1)).1.cap ∧
    MAX_BUCKET < (smartGet (smartPoolNew (8 * 2 ^ 20)) (2 ^ 20 + 1)).1.cap_bucket ∧
    ∀ st2 : SmartPoolSt,
      (smartDrop st2 (smartGet (smartPoolNew (8 * 2 ^ 20)) (2 ^ 20 + 1)).1).buckets =
        st2.buckets ∧
      (smartDrop st2 (smartGet (smartPoolNew (8 * 2 ^ 20)) (2 ^ 20 + 1)).1).bytes_in_use =
        usizeSub st2.bytes_in_use
          (smartGet (smartPoolNew (8 * 2 ^ 20)) (2 ^ 20 + 1)).1.cap) :=
  ⟨by decide, by decide, C9_thm (smartPoolNew (8 * 2 ^ 20)) (2 ^ 20 + 1)
    (by decide) (by decide)⟩

/-! ### The legacy `BufferPool` and its accounting bug (claim C8) -/

structure BufferPoolSt where
  buckets : List (List Nat)
  current_bytes : Nat
  max_bytes : Nat
  deriving DecidableEq, Repr

def bufferPoolNew (max_bytes : Nat) : BufferPoolSt :=
  ⟨List.replicate 13 [], 0, max_bytes⟩

/-- `BufferPoolEntry::bucket_index`: `while c < cap { c <<= 1; idx += 1 }`
starting at `min_bucket = 256`; 64 doublings dominate any `usize`
capacity. -/
def bpBucketIndexAux : Nat → Nat → Nat → Nat → Nat
  | 0, _, _, idx => idx
  | f + 1, c, cap, idx => if c < cap then bpBucketIndexAux f (c * 2) cap (idx + 1) else idx

def bp_bucket_index (cap : Nat) : Nat := bpBucketIndexAux 64 MIN_BUCKET cap 0

structure PoolPageM where
  cap : Nat
  cap_bucket : Nat
  deriving DecidableEq, Repr

/-- `BufferPool::get`: the target is clamped into `[MIN_BUCKET, MAX_BUCKET]`;
a hit subtracts the popped capacity from the counter, a miss adds the
allocation. -/
def bpGet (st : BufferPoolSt) (c : Nat) : PoolPageM × BufferPoolSt :=
  let want := min (pow2_ceil (max c MIN_BUCKET)) MAX_BUCKET
  match st.buckets.getD (bp_bucket_index want) [] with
  | cap :: bin =>
    (⟨cap, want⟩, { st with buckets := st.buckets.set (bp_bucket_index want) bin,
                            current_bytes := usizeSub st.current_bytes cap })
  | [] =>
    (⟨want, want⟩, { st with current_bytes := usizeAdd st.current_bytes want })

/-- `impl Drop for PoolPage`: for a cacheable page the counter is increased
by the capacity twice — once before taking the bucket lock and once after —
before the buffer is pushed. -/
def bpDrop (st : BufferPoolSt) (pg : PoolPageM) : BufferPoolSt :=
  if MAX_BUCKET < pg.cap_bucket then
    { st with current_bytes := usizeSub st.current_bytes pg.cap }
  else
    { st with
        current_bytes := usizeAdd (usizeAdd st.current_bytes pg.cap) pg.cap,
        buckets := st.buckets.set (bp_bucket_index pg.cap_bucket)
          (pg.cap :: st.buckets.getD (bp_bucket_index pg.cap_bucket) []) }

/-- Total bytes sitting in a pool's free lists. -/
def bpCachedBytes (st : BufferPoolSt) : Nat :=
  (concatL st.buckets).foldl (fun a b => a + b) 0

/-- Claim C8 states the accounting invariant `counter = in-flight bytes +
cached bytes`.  The legacy `BufferPool` the claim cites breaks it: after a
single `get(1024)` (miss, counter 1024) and the release of that page, the
counter reads 3072 while the free lists hold 1024 bytes and nothing is in
flight — `Drop` adds the capacity twice on top of the allocation that was
never deducted.  (`spec.md` §9 flags this double-count as a source defect;
the engine's `SmartBufferPool` keeps the invariant instead.) -/
theorem C8_bug_eval :
    (bpDrop (bpGet (bufferPoolNew (2 ^ 20)) 1024).2
      (bpGet (bufferPoolNew (2 ^ 20)) 1024).1).current_bytes = 3072 ∧
    bpCachedBytes (bpDrop (bpGet (bufferPoolNew (2 ^ 20)) 1024).2
      (bpGet (bufferPoolNew (2 ^ 20)) 1024).1) = 1024 ∧
    ¬ (bpDrop (bpGet (bufferPoolNew (2 ^ 20)) 1024).2
      (bpGet (bufferPoolNew (2 ^ 20)) 1024).1).current_bytes =
      0 + bpCachedBytes (bpDrop (bpGet (bufferPoolNew (2 ^ 20)) 1024).2
        (bpGet (bufferPoolNew (2 ^ 20)) 1024).1) := by
  decide

/-- Counterexample to C9 as frozen: the claim's cited `BufferPool::get`
clamps the target to `MAX_BUCKET`, so `get(2^21)` on a fresh legacy pool
returns a page of capacity `2^20 < 2^21`, and dropping that page caches it
(its `cap_bucket` is not above `MAX_BUCKET`): the free lists go from 0 to
`2^20` cached bytes, so the cached-buffer count does change on release. -/
theorem C9_cex :
    (bpGet (bufferPoolNew (2 ^ 20)) (2 ^ 21)).1.cap = 2 ^ 20 ∧
    (bpGet (bufferPoolNew (2 ^ 20)) (2 ^ 21)).1.cap < 2 ^ 21 ∧
    bpCachedBytes (bpGet (bufferPoolNew (2 ^ 20)) (2 ^ 21)).2 = 0 ∧
    bpCachedBytes (bpDrop (bpGet (bufferPoolNew (2 ^ 20)) (2 ^ 21)).2
      (bpGet (bufferPoolNew (2 ^ 20)) (2 ^ 21)).1) = 2 ^ 20 := by
  decide

/-! ## Table files (`toolkit/src/table`, claim C3)

The encoder is parameterised by the id's byte width (`u32` has 4). -/

def TABLE_MAGIC : Nat := 0xABCFDFF

def TABLE_HEADER_SIZE : Nat := 32

def TABLE_ROW_OFFSET_SIZE : Nat := 12

def TABLE_PAGE_SIZE : Nat := 512

/-- The `OffsetHeader` vector `Encoder::write` accumulates: `(id, offset in
the data temp file, size)`, with the running offset advanced by each
payload's length. -/
def encVec : List (Nat × List Nat) → Nat → List (Nat × Nat × Nat)
  | [], _ => []
  | (id, data) :: t, off => (id, off, data.length) :: encVec t (off + data.length)

/-- The bucket-offset loop of `Encoder::export`: starting at
`HEADER_SIZE + ROW_OFFSET_SIZE · num_buckets`, each bucket records
`(current_offset, row.len())` and advances by `row.len() + header_size`
(the source adds the entry count to the byte size instead of multiplying). -/
def bucketOffsets (header_size : Nat) : List (List (Nat × Nat × Nat)) → Nat →
    List (Nat × Nat)
  | [], _ => []
  | row :: t, cur => (cur, row.length) :: bucketOffsets header_size t (cur + (row.length + header_size))

/-- `Encoder::export`: magic and bucket count, the bucket directory, then
the sorted `OffsetHeader` entries of each bucket.  The payload bytes
written to the data temp file are never copied into the output. -/
def tableExport (idBytes : Nat) (rows : List (Nat × List Nat)) : Except EKind (List Nat) :=
  let vec := encVec rows 0
  if vec.length = 0 then .error .invalidData
  else
    let header_size := 8 + idBytes + 4
    let bucket_len := vec.length * header_size / TABLE_PAGE_SIZE + 1
    let matrix := (List.range bucket_len).map (fun b =>
      List.insertionSort (fun x y => x.1 ≤ y.1)
        (vec.filter (fun r => r.1 % bucket_len = b)))
    let offs := bucketOffsets header_size matrix
      (TABLE_HEADER_SIZE + TABLE_ROW_OFFSET_SIZE * bucket_len)
    .ok (natLeBytes TABLE_MAGIC 8 ++ natLeBytes bucket_len 8 ++
      concatL (offs.map (fun o => natLeBytes o.1 8 ++ natLeBytes (o.2 % 2 ^ 32) 4)) ++
      concatL (matrix.map (fun row => concatL (row.map (fun r =>
        natLeBytes r.2.1 8 ++ natLeBytes r.1 idBytes ++ natLeBytes (r.2.2 % 2 ^ 32) 4)))))

/-- `find_header_by_id`: scan 16-byte `OffsetHeader` records; a short
`read_exact` (the `take` budget or the file ends) is the `NotFound` case. -/
def findHeaderAux (idBytes : Nat) : Nat → List Nat → Nat → Option (Nat × Nat)
  | 0, _, _ => none
  | f + 1, bytes, id =>
    if bytes.length < 8 + idBytes + 4 then none
    else
      if leBytesToNat ((bytes.drop 8).take idBytes) = id then
        some (leBytesToNat (bytes.take 8),
          leBytesToNat ((bytes.drop (8 + idBytes)).take 4))
      else findHeaderAux idBytes f (bytes.drop (8 + idBytes + 4)) id

/-- `Decoder::new` followed by `query([id])` and `next_reader()` with
`read_to_end` on the section: parse the 32-byte header, pick the bucket by
`id % rows`, read that directory entry, scan the announced search area for
the id, and read `size` bytes at the found header's `offset`.  (`id % rows`
panics in Rust when `rows = 0`; no exported file has zero buckets.) -/
def tableQuery (idBytes : Nat) (file : List Nat) (id : Nat) : Except EKind (List Nat) :=
  if file.length < TABLE_HEADER_SIZE then .error .unexpectedEof
  else if leBytesToNat (file.take 8) ≠ TABLE_MAGIC then .error .invalidData
  else
    let rows := leBytesToNat ((file.drop 8).take 8)
    let row_offset := TABLE_HEADER_SIZE + TABLE_ROW_OFFSET_SIZE * (id % rows)
    if file.length < row_offset + TABLE_ROW_OFFSET_SIZE then .error .unexpectedEof
    else
      let data_offset := leBytesToNat ((file.drop row_offset).take 8)
      let row_count := leBytesToNat ((file.drop (row_offset + 8)).take 4)
      let area := (file.drop data_offset).take ((8 + idBytes + 4) * row_count)
      match findHeaderAux idBytes area.length area id with
      | none => .error .notFound
      | some (off, sz) => .ok ((file.drop off).take sz)

/-- Claim C3 describes the intended table roundtrip; the code diverges from
it.  `Encoder::export` never writes the payload bytes to the output, writes
a 16-byte header where the decoder expects 32 (`HEADER_SIZE`), lays the
directory at byte 16 while the stored offsets assume it starts at 32, and
advances bucket offsets by `row.len() + header_size` instead of
`row.len() * header_size`.  Concretely: exporting the single record
`(1, [10,20,30,40,50])` produces 44 bytes (16 + one 12-byte directory entry
+ one 16-byte offset header — no payload), and querying the written id 1
returns `NotFound`, because the directory entry read at offset 32 is
actually the tail of the offset header, pointing the search at
`data_offset = 2^32` past the end of the file. -/
theorem C3_bug_eval :
    Except.map (fun f => tableQuery 4 f 1) (tableExport 4 [(1, [10, 20, 30, 40, 50])]) =
      .ok (.error .notFound) ∧
    Except.map List.length (tableExport 4 [(1, [10, 20, 30, 40, 50])]) = .ok 44 := by
  decide

end RsCol
